import Mathlib

/-!
Verification of the rasterinlay repository core algorithms.

The development shallowly embeds the two algorithmic modules:

* `blocks` : diagonal run-counting (`get_counts`), block discovery and
  decomposition (`split_multiblock`, `split_overloaded`, `find_blocks`).
  2D grids are embedded as `List (List Nat)` (row-major, like numpy);
  block slices become `Rect` records with half-open row/column ranges.

* `distribute` : the capacity redistribution engine (`fraction_inlay`)
  and the batch orchestrator (`imprint_constraints`).  A rectangular
  block view is embedded as a flat `List Nat` in row-major order (the
  2D shape only matters through numpy's row-major `argmin`, which is
  "first index attaining the minimum" on the flattened data).  Python
  runtime errors (failed `assert`s, the unbound `invalid_mask` name)
  are modelled with an explicit error type; the unbounded `while`
  loop is modelled with fuel, with fuel exhaustion a distinct marker.

Machine integers: the source operates on caller-supplied numpy arrays
(the tests use `uint8`); values are embedded as `Nat` (the algorithms
are written for non-negative cell values) and capacities as `Int`,
matching exact integer arithmetic on the ranges exercised here.
-/

namespace RasterInlay

/-- A block slice, i.e. the pair of Python `slice`s
`(slice(rlo, rhi), slice(clo, chi))` produced by `get_block`:
rows `rlo ≤ r < rhi` and columns `clo ≤ c < chi`. -/
structure Rect where
  rlo : Nat
  rhi : Nat
  clo : Nat
  chi : Nat
deriving DecidableEq, Repr

/-- Cell membership in a block slice. -/
def inRect (b : Rect) (r c : Nat) : Prop :=
  b.rlo ≤ r ∧ r < b.rhi ∧ b.clo ≤ c ∧ c < b.chi

instance (b : Rect) (r c : Nat) : Decidable (inRect b r c) := by
  unfold inRect; infer_instance

/-- Consecutive half-open intervals starting at `a` with the given lengths.
This is the arithmetic content of the `upper_left` bookkeeping in
`split_multiblock`: each block starts where the previous one stopped. -/
def segs (a : Nat) : List Nat → List (Nat × Nat)
  | [] => []
  | l :: ls => (a, a + l) :: segs (a + l) ls

/-- Add 1 to each of the last `res` entries of `l`.  This is the effect of
the `while h_residue: block_heights[i] += 1; h_residue -= 1; i -= 1` loop
in `split_multiblock` (the index `i` walks `-1, -2, ...`, touching each of
the trailing `res` entries exactly once; Python raises `IndexError` when
`res` exceeds the list length, a case excluded by the split precondition). -/
def bumpLast (l : List Nat) (res : Nat) : List Nat :=
  l.take (l.length - res) ++ (l.drop (l.length - res)).map (· + 1)

/-- Row-major emission of one rectangle per (row interval, column interval)
pair: the nested `for _vert ... for _horiz ...` loop of `split_multiblock`. -/
def prodRects (rs cs : List (Nat × Nat)) : List Rect :=
  rs.foldr (fun rp acc =>
    (cs.map (fun cp => Rect.mk rp.1 rp.2 cp.1 cp.2)) ++ acc) []

/-- Embedding of `split_multiblock` (src/rasterinlay/blocks.py, lines
254-328).  `b_height = h_stop - h_start`, residues and multiplicities by
integer division, per-dimension length lists with the residue distributed
one unit at a time onto the trailing entries, and the row-major double
loop emitting the sub-blocks.  The `tolerance` argument is used by the
source only inside two trivially-true `assert`s
(`nbr_vertic_dev * tolerance <= h_residue` with
`nbr_vertic_dev = (h_residue - h_residue % tolerance) / tolerance`), so it
does not appear in the construction. -/
def split_multiblock (sblock : Rect) (height width : Nat) (_tolerance : Nat) :
    List Rect :=
  let b_height := sblock.rhi - sblock.rlo
  let h_residue := b_height % height
  let b_width := sblock.chi - sblock.clo
  let w_residue := b_width % width
  let h_mult := (b_height - h_residue) / height
  let w_mult := (b_width - w_residue) / width
  let block_heights := bumpLast (List.replicate h_mult height) h_residue
  let block_widths := bumpLast (List.replicate w_mult width) w_residue
  prodRects (segs sblock.rlo block_heights) (segs sblock.clo block_widths)

/-! 2D grids.  A raster is a row-major `List (List Nat)`; `gat` is numpy
element access (out-of-range reads default to 0 and are never exercised on
the runs proved about). -/

/-- A 2D array of (non-negative integer) cell values. -/
abbrev Grid := List (List Nat)

/-- Height of a grid: `raster.shape[0]`. -/
def gheight (g : Grid) : Nat := g.length

/-- Width of a grid: `raster.shape[1]` (grids are rectangular). -/
def gwidth (g : Grid) : Nat := (g.getD 0 []).length

/-- Element access `raster[r, c]`. -/
def gat (g : Grid) (r c : Nat) : Nat := (g.getD r []).getD c 0

/-- 1 if a cell value differs from the background `outvalue`, else 0: the
`np.where(col != outvalue, 1, 0)` vectors of `get_counts`. -/
def ind (out v : Nat) : Nat := if v ≠ out then 1 else 0

/-- Per-cell value left by the column pass of `get_counts` (blocks.py lines
32-40): `counts[:, c] = (col == last_col) * counts[:, c-1] + (col != out)`,
with `counts[:, 0] = (col0 != out)`.  The counts array is `np.uint8`
(blocks.py line 31), so the stored value wraps modulo 256 at every
assignment; the continue factor is 0 or 1 and the operand is already
reduced, so the product itself never wraps. -/
def xcount (g : Grid) (out r : Nat) : Nat → Nat
  | 0 => ind out (gat g r 0)
  | c + 1 => ((if gat g r (c + 1) = gat g r c then 1 else 0) * xcount g out r c
      + ind out (gat g r (c + 1))) % 256

/-- Per-cell amount the row pass of `get_counts` (blocks.py lines 42-50)
adds to row `r`: the `_last_adding` state (a `np.uint8` vector whose `+=`
wraps modulo 256) after row `r` equals
`(yadd r c + (raster[r, c] != out)) % 256`, and row `r+1` receives that
state multiplied by the 0/1 factor `(row_{r+1} == row_r)` (the product of
a reduced value and 0/1 never wraps).  Row 0 receives nothing. -/
def yadd (g : Grid) (out : Nat) : Nat → Nat → Nat
  | 0, _ => 0
  | r + 1, c => (yadd g out r c + ind out (gat g r c)) % 256 *
      (if gat g (r + 1) c = gat g r c then 1 else 0)

/-- Embedding of `get_counts` (blocks.py lines 6-51): the returned counts
grid is the column pass plus the row-pass addend, per cell, stored via
`+=` into the `np.uint8` counts array (blocks.py line 31), so each final
cell wraps modulo 256. -/
def get_counts (g : Grid) (out : Nat) : Grid :=
  (List.range (gheight g)).map (fun r =>
    (List.range (gwidth g)).map (fun c =>
      (xcount g out r c + yadd g out r c) % 256))

/-- Length of the contiguous same-value vertical run of non-background
values ending at cell (r, c); property language for the run-count claims. -/
def vrun (g : Grid) (out : Nat) : Nat → Nat → Nat
  | 0, c => ind out (gat g 0 c)
  | r + 1, c =>
    if gat g (r + 1) c = out then 0
    else (if gat g (r + 1) c = gat g r c then vrun g out r c else 0) + 1

/-! Block discovery (`blocks.py`). -/

/-- Minimum of a list of naturals (`np.min` on non-empty data; 0 on empty,
where numpy would raise). -/
def listMin : List Nat → Nat
  | [] => 0
  | [x] => x
  | x :: y :: xs => min x (listMin (y :: xs))

/-- Maximum of a list of naturals (`np.max` on non-empty data). -/
def listMax : List Nat → Nat
  | [] => 0
  | [x] => x
  | x :: y :: xs => max x (listMax (y :: xs))

/-- First index attaining the minimum: `np.argmin` on flattened
(row-major) data. -/
def idxOfMin : List Nat → Nat
  | [] => 0
  | [_] => 0
  | x :: y :: xs => if x ≤ listMin (y :: xs) then 0 else idxOfMin (y :: xs) + 1

/-- Row-major flattening of a grid. -/
def flatG (g : Grid) : List Nat := g.foldr (· ++ ·) []

/-- `np.any(counts)`: some entry is nonzero. -/
def anyNonzero (g : Grid) : Bool := (flatG g).any (· != 0)

/-- `np.min(counts[counts != 0])`. -/
def minNonzero (g : Grid) : Nat := listMin ((flatG g).filter (· != 0))

/-- `counts[counts != 0] -= min_count - 1` (blocks.py line 507). -/
def normalizeCounts (g : Grid) (m : Nat) : Grid :=
  g.map (fun row => row.map (fun v => if v ≠ 0 then v - (m - 1) else v))

/-- Row-major list of the coordinates of an h×w grid. -/
def coords (h w : Nat) : List (Nat × Nat) :=
  (List.range h).foldr
    (fun r acc => ((List.range w).map (fun c => (r, c))) ++ acc) []

/-- `_superblock_starts` (blocks.py lines 119-120): row-major coordinates
where the count equals 1 (`np.where(inside_counts == 1)`). -/
def superblock_starts (counts : Grid) : List (Nat × Nat) :=
  (coords (gheight counts) (gwidth counts)).filter
    (fun p => gat counts p.1 p.2 == 1)

/-- Width-growth loop of `_superblock_shapes` (blocks.py lines 128-135):
probe cell `(rs, cs+_w+1)`; continue while its count strictly exceeds the
count at `(rs, cs+_w)` and its value matches; after stepping, stop at the
grid boundary.  Out-of-range probes read 0 here, ending the loop (numpy
raises `IndexError` for a start in the last column; such inputs are not
exercised in this development).  Fuel bounds the loop by the grid width. -/
def growW (raster counts : Grid) (rs cs val W : Nat) : Nat → Nat → Nat
  | 0, w => w
  | fuel + 1, w =>
    if gat counts rs (cs + w + 1) > gat counts rs (cs + w) ∧
        gat raster rs (cs + w + 1) = val then
      (if cs + (w + 1) + 1 = W then w + 1
       else growW raster counts rs cs val W fuel (w + 1))
    else w

/-- Height-growth loop of `_superblock_shapes` (blocks.py lines 136-142),
symmetric to `growW`. -/
def growH (raster counts : Grid) (rs cs val H : Nat) : Nat → Nat → Nat
  | 0, h => h
  | fuel + 1, h =>
    if gat counts (rs + h + 1) cs > gat counts (rs + h) cs ∧
        gat raster (rs + h + 1) cs = val then
      (if rs + (h + 1) + 1 = H then h + 1
       else growH raster counts rs cs val H fuel (h + 1))
    else h

/-- Shape `( _h+1, _w+1 )` grown from a start, as in `_superblock_shapes`. -/
def superblock_shape (raster counts : Grid) (p : Nat × Nat) : Nat × Nat :=
  let val := gat raster p.1 p.2
  let w := growW raster counts p.1 p.2 val (gwidth raster) (gwidth raster) 0
  let h := growH raster counts p.1 p.2 val (gheight raster) (gheight raster) 0
  (h + 1, w + 1)

/-- `get_block` (blocks.py lines 54-78) with no offset: the slice pair
`(slice(start, start+shape))` in both dimensions. -/
def get_block (start shape : Nat × Nat) : Rect :=
  ⟨start.1, start.1 + shape.1, start.2, start.2 + shape.2⟩

/-- `offset_block` (blocks.py lines 81-96). -/
def offset_block (b : Rect) (off : Nat × Nat) : Rect :=
  ⟨b.rlo + off.1, b.rhi + off.1, b.clo + off.2, b.chi + off.2⟩

/-- `get_superblocks` (blocks.py lines 147-178): one block per start, with
its grown shape.  (The `outvalue` parameter of the source is unused in its
body.) -/
def get_superblocks (raster counts : Grid) : List Rect :=
  (superblock_starts counts).map
    (fun st => get_block st (superblock_shape raster counts st))

/-- Row-major values of a grid restricted to a block slice. -/
def rectVals (g : Grid) (b : Rect) : List Nat :=
  (List.range (b.rhi - b.rlo)).foldr
    (fun i acc => ((List.range (b.chi - b.clo)).map
      (fun j => gat g (b.rlo + i) (b.clo + j))) ++ acc) []

/-- `len(np.unique(raster[sblock])) > 1`: the slice holds more than one
distinct value. -/
def multivalued (g : Grid) (b : Rect) : Bool :=
  match rectVals g b with
  | [] => false
  | v :: vs => vs.any (· != v)

/-- `np.max(counts[sblock])`. -/
def rectMax (g : Grid) (b : Rect) : Nat := listMax (rectVals g b)

/-- `_classify_block` (blocks.py lines 181-206): 2 = overloaded when more
than one distinct value, else 0 = ordinary when the maximum count in the
slice is at most `ok_max`, else 1 = multi-block. -/
def classify_block (manyUniques : Bool) (counts : Grid) (b : Rect)
    (ok_max : Nat) : Nat :=
  if manyUniques then 2
  else if rectMax counts b ≤ ok_max then 0
  else 1

/-- `separate_superblocks` (blocks.py lines 209-251): distribute the
superblocks over (ordinary, multi, overloaded) in encounter order, with
`ok_max = block_height + block_width + 2 * tolerance`. -/
def separate_superblocks (raster counts : Grid) (sbs : List Rect)
    (bh bw tol : Nat) : List Rect × List Rect × List Rect :=
  sbs.foldr (fun b acc =>
    match classify_block (multivalued raster b) counts b (bh + bw + 2 * tol) with
    | 0 => (b :: acc.1, acc.2.1, acc.2.2)
    | 1 => (acc.1, b :: acc.2.1, acc.2.2)
    | _ => (acc.1, acc.2.1, b :: acc.2.2)) ([], [], [])

/-- Sub-grid of `g` selected by a block slice (`raster[overloaded_block]`). -/
def subgrid (g : Grid) (b : Rect) : Grid :=
  ((g.drop b.rlo).take (b.rhi - b.rlo)).map
    (fun row => (row.drop b.clo).take (b.chi - b.clo))

/-- `min(starts, key=lambda x: x[0])[0]` (0 on an empty list, where Python
raises `ValueError`; not exercised here). -/
def minFst (ps : List (Nat × Nat)) : Nat := listMin (ps.map (·.1))

/-- `min(starts, key=lambda x: x[1])[1]`. -/
def minSnd (ps : List (Nat × Nat)) : Nat := listMin (ps.map (·.2))

/-- `split_overloaded` (blocks.py lines 361-439): recompute counts locally
on the sub-raster with the top-left value as background, grow inner
candidates, emit the top strip and left strip as multi-blocks, and classify
each inner candidate whose top-left cell is not the background, translated
back to absolute coordinates.  (The `counts` parameter of the source
function is unused in its body.) -/
def split_overloaded (raster _counts : Grid) (ob : Rect) (bh bw out tol : Nat) :
    List Rect × List Rect × List Rect :=
  let ok_max := bh + bw + 2 * tol
  let br := subgrid raster ob
  let value := gat br 0 0
  let lcounts := get_counts br value
  let lstarts := superblock_starts lcounts
  let inner := lstarts.map
    (fun st => get_block st (superblock_shape br lcounts st))
  let upper_height := minFst lstarts
  let left_width := minSnd lstarts
  let top : Rect := ⟨ob.rlo, ob.rlo + upper_height, ob.clo, ob.chi⟩
  let leftb : Rect := ⟨ob.rlo + upper_height, ob.rhi, ob.clo, ob.clo + left_width⟩
  let cl := inner.foldr (fun lb acc =>
    if gat br lb.rlo lb.clo ≠ out then
      let orig := offset_block lb (ob.rlo, ob.clo)
      match classify_block (multivalued raster orig) lcounts lb ok_max with
      | 0 => (orig :: acc.1, acc.2.1, acc.2.2)
      | 1 => (acc.1, orig :: acc.2.1, acc.2.2)
      | _ => (acc.1, acc.2.1, orig :: acc.2.2)
    else acc) ([], [], [])
  (cl.1, top :: leftb :: cl.2.1, cl.2.2)

/-- `breakdown_overloadeds` (blocks.py lines 442-473). -/
def breakdown_overloadeds (raster counts : Grid) (obs : List Rect)
    (bh bw out tol : Nat) : List Rect × List Rect × List Rect :=
  obs.foldr (fun ol acc =>
    let t := split_overloaded raster counts ol bh bw out tol
    (t.1 ++ acc.1, t.2.1 ++ acc.2.1, t.2.2 ++ acc.2.2)) ([], [], [])

/-- `breakdown_multiblocks` (blocks.py lines 331-358). -/
def breakdown_multiblocks (mbs : List Rect) (bh bw tol : Nat) : List Rect :=
  mbs.foldr (fun mb acc => split_multiblock mb bh bw tol ++ acc) []

/-- `counts[block] = 0` for one block slice. -/
def zeroRect (g : Grid) (b : Rect) : Grid :=
  g.mapIdx (fun r row => row.mapIdx (fun c v =>
    if b.rlo ≤ r ∧ r < b.rhi ∧ b.clo ≤ c ∧ c < b.chi then 0 else v))

/-- The `while overloaded:` loop inside `find_blocks` (blocks.py lines
513-517), accumulating ordinary and multi blocks until no overloaded
blocks remain; fuel bounds the loop. -/
def overloadedLoop (raster counts : Grid) (bh bw out tol : Nat) :
    Nat → List Rect → List Rect × List Rect → List Rect × List Rect
  | 0, _, acc => acc
  | fuel + 1, obs, acc =>
    match obs with
    | [] => acc
    | _ =>
      let t := breakdown_overloadeds raster counts obs bh bw out tol
      overloadedLoop raster counts bh bw out tol fuel t.2.2
        (acc.1 ++ t.1, acc.2 ++ t.2.1)

/-- The `while np.any(counts):` driver loop of `find_blocks` (blocks.py
lines 503-526): normalize the smallest nonzero count to 1, locate and
classify superblocks, duplicate the ordinary list
(`_blocks.extend(_blocks)`, line 511), resolve overloaded blocks to
exhaustion, break down multi-blocks, zero out the processed areas, and
accumulate.  (The source calls `breakdown_overloadeds` with its default
`outvalue=0` and `tolerance=1`, not the caller's `outvalue`.) -/
def find_blocks_loop (raster : Grid) (bh bw out : Nat) :
    Nat → Grid → List Rect → List Rect
  | 0, _, acc => acc
  | fuel + 1, counts, acc =>
    if anyNonzero counts then
      let m := minNonzero counts
      let counts1 := normalizeCounts counts m
      let sbs := get_superblocks raster counts1
      let t := separate_superblocks raster counts1 sbs bh bw 1
      let bs := t.1 ++ t.1
      let ov := overloadedLoop raster counts1 bh bw 0 1 (fuel + 1) t.2.2 ([], [])
      let bs2 := bs ++ ov.1 ++ breakdown_multiblocks (t.2.1 ++ ov.2) bh bw 1
      let counts2 := bs2.foldl zeroRect counts1
      find_blocks_loop raster bh bw out fuel counts2 (acc ++ bs2)
    else acc

/-- Embedding of `find_blocks` (blocks.py lines 476-526). -/
def find_blocks (raster : Grid) (bh bw out fuel : Nat) : List Rect :=
  find_blocks_loop raster bh bw out fuel (get_counts raster out) []

/-! The redistribution engine (`distribute.py`).  A block view is a flat
row-major `List Nat`; numpy's `argmin` over the 2D block is the first
minimum of the flattened data, so the 2D shape is immaterial. -/

/-- `InvalidCellsIn` (distribute.py lines 25-37). -/
inductive InvalidCellsIn
  | none
  | raster
  | constraints
deriving DecidableEq, Repr

/-- Python runtime outcomes of `fraction_inlay` other than a normal
return: the three `assert` statements that can fail, the unbound
`invalid_mask` name in the final conservation check when
`invalid_in == none`, and a marker for exhausting the fuel that models
the unbounded `while raster_total:` loop. -/
inductive PyErr
  | constAssert
  | fillAssert
  | conservAssert
  | nameError
  | outOfFuel
deriving DecidableEq, Repr

/-- Result of the incremental fill loop (distribute.py lines 199-211):
final raster data, the sequence of `min_ind` choices (observable as which
cells receive increments), and an error, if any. -/
structure FillRes where
  g : List Nat
  sel : List Nat
  err : Option PyErr
deriving DecidableEq, Repr

/-- The `while raster_total:` loop (distribute.py lines 199-211): pick the
first index minimizing `raster_block + const_block`, add `cell_unit`
there, fail like the `assert raster_block[min_ind] <= cell_max` if the new
value exceeds `cell_max`, and decrement `raster_total` by `cell_unit`.
`rem` is an `Int` because the Python counter goes negative (and the loop
keeps running) when `cell_unit` does not divide the initial total. -/
def fillLoop (const : List Nat) (u cmax : Nat) :
    Nat → List Nat → Int → FillRes
  | 0, g, rem => if rem = 0 then ⟨g, [], Option.none⟩
      else ⟨g, [], some .outOfFuel⟩
  | fuel + 1, g, rem =>
    if rem = 0 then ⟨g, [], Option.none⟩
    else
      let i := idxOfMin (List.zipWith (· + ·) g const)
      let g' := g.set i (g.getD i 0 + u)
      if g'.getD i 0 ≤ cmax then
        let r := fillLoop const u cmax fuel g' (rem - (u : Int))
        ⟨r.g, i :: r.sel, r.err⟩
      else ⟨g', [i], some .fillAssert⟩

/-- Validity of cell `i` under an invalid-cell policy: the mask
`_with_invalid != invalid_value` of distribute.py lines 108-113 (all cells
are valid when the policy is `none`). -/
def validB (mode : InvalidCellsIn) (inv : Nat) (raster const : List Nat)
    (i : Nat) : Bool :=
  match mode with
  | .none => true
  | .raster => raster.getD i 0 != inv
  | .constraints => const.getD i 0 != inv

/-- Indices of the valid cells of a block, in order. -/
def validIdx (mode : InvalidCellsIn) (inv : Nat) (raster const : List Nat) :
    List Nat :=
  (List.range raster.length).filter (validB mode inv raster const)

/-- Indices of the invalid cells of a block, in order. -/
def invIdx (mode : InvalidCellsIn) (inv : Nat) (raster const : List Nat) :
    List Nat :=
  (List.range raster.length).filter (fun i => ! validB mode inv raster const i)

/-- `raster_total = np.sum(valid_raster_block)` (distribute.py line 124). -/
def rasterTotalOf (mode : InvalidCellsIn) (inv : Nat)
    (raster const : List Nat) : Nat :=
  ((validIdx mode inv raster const).map (raster.getD · 0)).sum

/-- `const_total = np.sum(valid_const_block)` (distribute.py line 125). -/
def constTotalOf (mode : InvalidCellsIn) (inv : Nat)
    (raster const : List Nat) : Nat :=
  ((validIdx mode inv raster const).map (const.getD · 0)).sum

/-- `block_capacity = block_max - (const_total + raster_total)`
(distribute.py lines 133, 171-173), as an exact integer. -/
def blockCapacityOf (mode : InvalidCellsIn) (inv : Nat)
    (raster const : List Nat) (cmax : Nat) : Int :=
  ((validIdx mode inv raster const).length * cmax : Nat) -
    ((constTotalOf mode inv raster const + rasterTotalOf mode inv raster const : Nat) : Int)

/-- Result of `fraction_inlay`: either a Python error or the returned pair
(raster block, capacity), plus the fill-loop selection trace. -/
structure InlayOut where
  res : Except PyErr (List Nat × Option Int)
  sel : List Nat
deriving Repr

/-- The wiped block of distribute.py lines 189-197: valid cells to 0,
invalid cells to `invalid_value` (with no invalid policy every cell is
valid, i.e. `raster_block[:] = 0`). -/
def wipedOf (mode : InvalidCellsIn) (inv : Nat) (raster const : List Nat) :
    List Nat :=
  (List.range raster.length).map
    (fun i => if validB mode inv raster const i then 0 else inv)

/-- The jammed-branch block of distribute.py lines 177-185: valid cells
forced to `cell_max - const`, invalid cells kept.  (With no invalid policy
this is `cell_max - const_block` everywhere; in the other modes the mask
`_with_invalid != invalid_value` is evaluated on the original grids, since
line 179/181 rebinds `raster_block` to a fresh array.) -/
def jamOf (mode : InvalidCellsIn) (inv : Nat) (raster const : List Nat)
    (cmax : Nat) : List Nat :=
  (List.range raster.length).map
    (fun i => if validB mode inv raster const i then cmax - const.getD i 0
      else raster.getD i 0)

/-- The restore step of distribute.py lines 212-216,
`np.where(_with_invalid != invalid_value, raster_block, _raster_block_orig)`,
applied to the post-fill data `fg`.  For `invalid_in == raster`,
`_with_invalid` aliases the in-place mutated `raster_block`, so the mask is
recomputed from the post-fill values `fg`; for `invalid_in == constraints`
it reads the untouched constraints block.  With no invalid policy there is
no restore (and the source raises `NameError` before returning). -/
def restoreOf (mode : InvalidCellsIn) (inv : Nat) (raster const fg : List Nat) :
    List Nat :=
  match mode with
  | .none => fg
  | .raster => (List.range raster.length).map (fun i =>
      if fg.getD i 0 ≠ inv then fg.getD i 0 else raster.getD i 0)
  | .constraints => (List.range raster.length).map (fun i =>
      if const.getD i 0 ≠ inv then fg.getD i 0 else raster.getD i 0)

/-- Embedding of `fraction_inlay` (distribute.py lines 71-220).

* valid mask and early `ignored` return (lines 104-121);
* the `assert np.all(valid_const_block <= cell_max)` (line 164); the size
  assert on line 127 compares `valid_raster_block.size` with itself and
  cannot fail, and the single-value precondition (lines 140-149) is
  commented out in the source, so neither appears here;
* the jammed branch (lines 174-185): valid cells forced to
  `cell_max - const`, invalid cells kept (via a fresh array, so the
  original mask applies);
* the redistribution branch (lines 186-216): wipe valid cells to 0 and
  invalid cells to `invalid_value` (line 194, evaluated on the original
  values), run the fill loop, then restore.  The restore mask (line 213)
  re-reads `_with_invalid`, which for `invalid_in == raster` aliases the
  *mutated* raster block, so there the mask is recomputed from the
  post-fill values; for `invalid_in == constraints` it reads the
  untouched constraints block;
* the final conservation check (lines 217-219) runs whenever
  `block_capacity >= 0` (always, in the redistribution branch): with
  `invalid_in == none` the name `invalid_mask` was never assigned
  (`NameError`); otherwise the assert compares the initial valid total
  with the post-restore valid total over the original mask. -/
def fraction_inlay (rasterBlock constBlock : List Nat) (cellUnit cellMax : Nat)
    (invalidIn : InvalidCellsIn) (invalidValue : Nat) (fuel : Nat) : InlayOut :=
  let V := validIdx invalidIn invalidValue rasterBlock constBlock
  if V = [] then ⟨.ok (rasterBlock, Option.none), []⟩
  else
    let rasterTotal := rasterTotalOf invalidIn invalidValue rasterBlock constBlock
    let constTotal := constTotalOf invalidIn invalidValue rasterBlock constBlock
    let blockMax := V.length * cellMax
    if ¬ (∀ i ∈ V, constBlock.getD i 0 ≤ cellMax) then ⟨.error .constAssert, []⟩
    else
      let blockCapacity : Int :=
        blockCapacityOf invalidIn invalidValue rasterBlock constBlock cellMax
      if blockMax < constTotal + rasterTotal then
        ⟨.ok (jamOf invalidIn invalidValue rasterBlock constBlock cellMax,
          some blockCapacity), []⟩
      else
        let fr := fillLoop constBlock cellUnit cellMax fuel
          (wipedOf invalidIn invalidValue rasterBlock constBlock)
          (rasterTotal : Int)
        match fr.err with
        | some e => ⟨.error e, fr.sel⟩
        | Option.none =>
          match invalidIn with
          | .none => ⟨.error .nameError, fr.sel⟩
          | _ =>
            let g1 := restoreOf invalidIn invalidValue rasterBlock constBlock fr.g
            if rasterTotal = ((V.map (g1.getD · 0)).sum)
            then ⟨.ok (g1, some blockCapacity), fr.sel⟩
            else ⟨.error .conservAssert, fr.sel⟩

/-- Per-region outcome lists of `imprint_constraints`
(distribute.py line 283). -/
structure Report where
  ok : List Nat
  jammed : List Nat
  ignored : List Nat
  failed : List Nat
deriving DecidableEq, Repr

/-- The region loop of `imprint_constraints` (distribute.py lines 284-300),
with regions given as already-extracted (raster view, constraints view)
pairs — `inlay` (lines 223-262) only passes the two views through and
writes the returned block back into the view, which does not affect the
report or the capacities.  `BlockProcessingError` (from
`MultivaluedBlockError`) would be recorded as `failed`; it is unreachable
because the single-value check is commented out, and any other Python
error propagates, aborting the batch. -/
def imprintGo (u cmax : Nat) (mode : InvalidCellsIn) (inv fuel : Nat) :
    Nat → List (List Nat × List Nat) → Report → List (Nat × Int) →
    Except PyErr (Report × List (Nat × Int))
  | _, [], rep, caps => .ok (rep, caps)
  | i, (r, cst) :: rest, rep, caps =>
    match (fraction_inlay r cst u cmax mode inv fuel).res with
    | .error e => .error e
    | .ok (_, some c) =>
      if c < 0 then
        imprintGo u cmax mode inv fuel (i + 1) rest
          { rep with jammed := rep.jammed ++ [i] } (caps ++ [(i, c)])
      else
        imprintGo u cmax mode inv fuel (i + 1) rest
          { rep with ok := rep.ok ++ [i] } (caps ++ [(i, c)])
    | .ok (_, Option.none) =>
      imprintGo u cmax mode inv fuel (i + 1) rest
        { rep with ignored := rep.ignored ++ [i] } caps

/-- Embedding of `imprint_constraints` (distribute.py lines 265-301) for
`data_type == CombineTypes.fill` (the only implemented combine type). -/
def imprint_constraints (regions : List (List Nat × List Nat))
    (u cmax : Nat) (mode : InvalidCellsIn) (inv fuel : Nat) :
    Except PyErr (Report × List (Nat × Int)) :=
  imprintGo u cmax mode inv fuel 0 regions ⟨[], [], [], []⟩ []

/-! Lemmas about interval lists produced by `segs`. -/

theorem segs_bounds {ls : List Nat} :
    ∀ {a : Nat} {p : Nat × Nat}, p ∈ segs a ls →
      a ≤ p.1 ∧ p.1 ≤ p.2 ∧ p.2 ≤ a + ls.sum := by
  induction ls with
  | nil => intro a p hp; simp [segs] at hp
  | cons l ls ih =>
    intro a p hp
    simp only [segs, List.mem_cons] at hp
    rcases hp with rfl | hp
    · dsimp only; simp only [List.sum_cons]; omega
    · have h := ih hp
      simp only [List.sum_cons]
      omega

theorem mem_segs_len {ls : List Nat} :
    ∀ {a : Nat} {p : Nat × Nat}, p ∈ segs a ls → ∃ l ∈ ls, p.2 = p.1 + l := by
  induction ls with
  | nil => intro a p hp; simp [segs] at hp
  | cons l ls ih =>
    intro a p hp
    simp only [segs, List.mem_cons] at hp
    rcases hp with rfl | hp
    · exact ⟨l, List.mem_cons_self .., rfl⟩
    · obtain ⟨l', hl', h⟩ := ih hp
      exact ⟨l', List.mem_cons_of_mem _ hl', h⟩

theorem segs_cover {ls : List Nat} :
    ∀ {a x : Nat}, (a ≤ x ∧ x < a + ls.sum) ↔
      ∃ p ∈ segs a ls, p.1 ≤ x ∧ x < p.2 := by
  induction ls with
  | nil => intro a x; simp [segs]
  | cons l ls ih =>
    intro a x
    constructor
    · rintro ⟨h1, h2⟩
      by_cases hx : x < a + l
      · exact ⟨(a, a + l), by simp [segs], h1, hx⟩
      · simp only [List.sum_cons] at h2
        obtain ⟨p, hp, hps⟩ := (ih (a := a + l) (x := x)).1 ⟨by omega, by omega⟩
        exact ⟨p, by simp [segs, hp], hps⟩
    · rintro ⟨p, hp, hx1, hx2⟩
      simp only [segs, List.mem_cons] at hp
      simp only [List.sum_cons]
      rcases hp with rfl | hp
      · dsimp only at hx1 hx2; omega
      · have h := segs_bounds hp
        omega

theorem segs_pairwise {ls : List Nat} :
    ∀ {a : Nat}, List.Pairwise (fun p q => p.2 ≤ q.1) (segs a ls) := by
  induction ls with
  | nil => intro a; simp [segs]
  | cons l ls ih =>
    intro a
    refine List.Pairwise.cons (fun q hq => ?_) ih
    exact (segs_bounds hq).1

/-! Lemmas about `bumpLast` on constant lists. -/

theorem bumpLast_replicate {m h res : Nat} (hres : res ≤ m) :
    bumpLast (List.replicate m h) res =
      List.replicate (m - res) h ++ List.replicate res (h + 1) := by
  unfold bumpLast
  rw [List.length_replicate, List.take_replicate, List.drop_replicate,
    List.map_replicate]
  congr 1
  · congr 1; omega
  · congr 1; omega

theorem bumpLast_replicate_sum {m h res : Nat} (hres : res ≤ m) :
    (bumpLast (List.replicate m h) res).sum = m * h + res := by
  rw [bumpLast_replicate hres, List.sum_append, List.sum_replicate,
    List.sum_replicate, smul_eq_mul, smul_eq_mul]
  have : m - res + res = m := by omega
  nlinarith [this]

theorem bumpLast_replicate_mem {m h s t : Nat}
    (hpre : s = 0 ∨ (s ≤ m ∧ 1 ≤ t)) :
    ∀ x ∈ bumpLast (List.replicate m h) s, h ≤ x ∧ x ≤ h + t := by
  intro x hx
  have hres : s ≤ m := by rcases hpre with rfl | ⟨h1, _⟩ <;> omega
  rw [bumpLast_replicate hres, List.mem_append] at hx
  rcases hx with hx | hx
  · have := List.eq_of_mem_replicate hx; omega
  · have := List.eq_of_mem_replicate hx
    rcases hpre with rfl | ⟨_, htol⟩
    · simp at hx
    · omega

/-! Lemmas about `prodRects`. -/

theorem mem_prodRects {rs cs : List (Nat × Nat)} {b : Rect} :
    b ∈ prodRects rs cs ↔
      ∃ rp ∈ rs, ∃ cp ∈ cs, b = Rect.mk rp.1 rp.2 cp.1 cp.2 := by
  induction rs with
  | nil => simp [prodRects]
  | cons rp rs ih =>
    simp only [prodRects, List.foldr_cons, List.mem_append, List.mem_map,
      List.mem_cons]
    constructor
    · rintro (⟨cp, hcp, rfl⟩ | h)
      · exact ⟨rp, Or.inl rfl, cp, hcp, rfl⟩
      · obtain ⟨rp', hrp', cp, hcp, rfl⟩ := ih.1 h
        exact ⟨rp', Or.inr hrp', cp, hcp, rfl⟩
    · rintro ⟨rp', hrp' | hrp', cp, hcp, rfl⟩
      · exact Or.inl ⟨cp, hcp, by rw [hrp']⟩
      · exact Or.inr (ih.2 ⟨rp', hrp', cp, hcp, rfl⟩)

theorem prodRects_cover {rs cs : List (Nat × Nat)} {r c : Nat} :
    (∃ b ∈ prodRects rs cs, inRect b r c) ↔
      (∃ rp ∈ rs, rp.1 ≤ r ∧ r < rp.2) ∧ (∃ cp ∈ cs, cp.1 ≤ c ∧ c < cp.2) := by
  constructor
  · rintro ⟨b, hb, hin⟩
    obtain ⟨rp, hrp, cp, hcp, rfl⟩ := mem_prodRects.1 hb
    obtain ⟨h1, h2, h3, h4⟩ := hin
    exact ⟨⟨rp, hrp, h1, h2⟩, ⟨cp, hcp, h3, h4⟩⟩
  · rintro ⟨⟨rp, hrp, h1, h2⟩, ⟨cp, hcp, h3, h4⟩⟩
    exact ⟨Rect.mk rp.1 rp.2 cp.1 cp.2,
      mem_prodRects.2 ⟨rp, hrp, cp, hcp, rfl⟩, h1, h2, h3, h4⟩

theorem prodRects_pairwise {rs cs : List (Nat × Nat)}
    (hr : List.Pairwise (fun p q => p.2 ≤ q.1) rs)
    (hc : List.Pairwise (fun p q => p.2 ≤ q.1) cs) :
    List.Pairwise (fun s1 s2 => ∀ r c, inRect s1 r c → ¬ inRect s2 r c)
      (prodRects rs cs) := by
  induction rs with
  | nil => simp [prodRects]
  | cons rp rs ih =>
    have hr' := List.pairwise_cons.1 hr
    show List.Pairwise _ ((cs.map _) ++ prodRects rs cs)
    rw [List.pairwise_append]
    refine ⟨?_, ih hr'.2, ?_⟩
    · -- rectangles of one row are column-disjoint
      refine List.Pairwise.map _ (fun cp cq hle => ?_) hc
      rintro r c ⟨_, _, _, h4⟩ ⟨_, _, h7, _⟩
      dsimp only at h4 h7
      omega
    · -- rectangles of the first row are row-disjoint from later rows
      rintro s1 hs1 s2 hs2
      obtain ⟨cp, _, rfl⟩ := List.mem_map.1 hs1
      obtain ⟨rq, hrq, cq, _, rfl⟩ := mem_prodRects.1 hs2
      have hle : rp.2 ≤ rq.1 := hr'.1 rq hrq
      rintro r c ⟨_, h2, _, _⟩ ⟨h5, _, _, _⟩
      dsimp only at h2 h5
      omega

/-- Claim C6: for a multi-block rectangle satisfying the split precondition
(each dimension's residue under integer division by the target dimension is
absorbed, one unit per trailing block, within the tolerance),
`split_multiblock` returns rectangles that tile the input exactly — pairwise
disjoint with union equal to the input rectangle — each of height in
[h, h+t] and width in [w, w+t]. -/
theorem split_multiblock_tiles (b : Rect) (height width tolerance : Nat)
    (hh : 1 ≤ height) (hw : 1 ≤ width)
    (hwfr : b.rlo ≤ b.rhi) (hwfc : b.clo ≤ b.chi)
    (hpreH : (b.rhi - b.rlo) % height = 0 ∨
      ((b.rhi - b.rlo) % height ≤ (b.rhi - b.rlo) / height ∧ 1 ≤ tolerance))
    (hpreW : (b.chi - b.clo) % width = 0 ∨
      ((b.chi - b.clo) % width ≤ (b.chi - b.clo) / width ∧ 1 ≤ tolerance)) :
    (∀ r c, inRect b r c ↔
      ∃ s ∈ split_multiblock b height width tolerance, inRect s r c) ∧
    List.Pairwise (fun s1 s2 => ∀ r c, inRect s1 r c → ¬ inRect s2 r c)
      (split_multiblock b height width tolerance) ∧
    (∀ s ∈ split_multiblock b height width tolerance,
      height ≤ s.rhi - s.rlo ∧ s.rhi - s.rlo ≤ height + tolerance ∧
      width ≤ s.chi - s.clo ∧ s.chi - s.clo ≤ width + tolerance) := by
  have hmultH : (b.rhi - b.rlo - (b.rhi - b.rlo) % height) / height =
      (b.rhi - b.rlo) / height := by
    have := Nat.div_add_mod (b.rhi - b.rlo) height
    have h2 : b.rhi - b.rlo - (b.rhi - b.rlo) % height =
        height * ((b.rhi - b.rlo) / height) := by omega
    rw [h2, Nat.mul_div_cancel_left _ (by omega)]
  have hmultW : (b.chi - b.clo - (b.chi - b.clo) % width) / width =
      (b.chi - b.clo) / width := by
    have := Nat.div_add_mod (b.chi - b.clo) width
    have h2 : b.chi - b.clo - (b.chi - b.clo) % width =
        width * ((b.chi - b.clo) / width) := by omega
    rw [h2, Nat.mul_div_cancel_left _ (by omega)]
  have hresH : (b.rhi - b.rlo) % height ≤ (b.rhi - b.rlo) / height := by
    rcases hpreH with h | ⟨h, _⟩
    · rw [h]; exact Nat.zero_le _
    · exact h
  have hresW : (b.chi - b.clo) % width ≤ (b.chi - b.clo) / width := by
    rcases hpreW with h | ⟨h, _⟩
    · rw [h]; exact Nat.zero_le _
    · exact h
  have hsumH : (bumpLast (List.replicate ((b.rhi - b.rlo -
      (b.rhi - b.rlo) % height) / height) height)
      ((b.rhi - b.rlo) % height)).sum = b.rhi - b.rlo := by
    rw [hmultH, bumpLast_replicate_sum hresH, Nat.mul_comm]
    exact Nat.div_add_mod _ _
  have hsumW : (bumpLast (List.replicate ((b.chi - b.clo -
      (b.chi - b.clo) % width) / width) width)
      ((b.chi - b.clo) % width)).sum = b.chi - b.clo := by
    rw [hmultW, bumpLast_replicate_sum hresW, Nat.mul_comm]
    exact Nat.div_add_mod _ _
  unfold split_multiblock
  refine ⟨fun r c => ?_, prodRects_pairwise segs_pairwise segs_pairwise,
    fun s hs => ?_⟩
  · rw [prodRects_cover, ← segs_cover, ← segs_cover, hsumH, hsumW]
    unfold inRect
    constructor <;> intro h <;> [skip; skip] <;> omega
  · obtain ⟨rp, hrp, cp, hcp, rfl⟩ := mem_prodRects.1 hs
    obtain ⟨lh, hlh, heq⟩ := mem_segs_len hrp
    obtain ⟨lw, hlw, weq⟩ := mem_segs_len hcp
    rw [hmultH] at hlh
    rw [hmultW] at hlw
    have hb1 := bumpLast_replicate_mem
      (m := (b.rhi - b.rlo) / height) (s := (b.rhi - b.rlo) % height)
      (t := tolerance) (by rcases hpreH with h | h; exact Or.inl h; exact Or.inr h)
      lh hlh
    have hb2 := bumpLast_replicate_mem
      (m := (b.chi - b.clo) / width) (s := (b.chi - b.clo) % width)
      (t := tolerance) (by rcases hpreW with h | h; exact Or.inl h; exact Or.inr h)
      lw hlw
    simp only [heq, weq]
    omega

/-- Witness for C6: the 5×4 multi-block at origin, target shape (2,2),
tolerance 1, satisfies the precondition, and the tiling conclusion holds. -/
theorem split_multiblock_tiles_witness :
    ((1 ≤ 2 ∧ (0:Nat) ≤ 5 ∧ (0:Nat) ≤ 4) ∧
      ((5:Nat) % 2 = 0 ∨ ((5:Nat) % 2 ≤ 5 / 2 ∧ 1 ≤ 1)) ∧
      ((4:Nat) % 2 = 0 ∨ ((4:Nat) % 2 ≤ 4 / 2 ∧ 1 ≤ 1))) ∧
    ((∀ r c, inRect ⟨0, 5, 0, 4⟩ r c ↔
        ∃ s ∈ split_multiblock ⟨0, 5, 0, 4⟩ 2 2 1, inRect s r c) ∧
      List.Pairwise (fun s1 s2 => ∀ r c, inRect s1 r c → ¬ inRect s2 r c)
        (split_multiblock ⟨0, 5, 0, 4⟩ 2 2 1) ∧
      (∀ s ∈ split_multiblock ⟨0, 5, 0, 4⟩ 2 2 1,
        2 ≤ s.rhi - s.rlo ∧ s.rhi - s.rlo ≤ 2 + 1 ∧
        2 ≤ s.chi - s.clo ∧ s.chi - s.clo ≤ 2 + 1)) :=
  ⟨⟨⟨by decide, by decide, by decide⟩, by decide, by decide⟩,
   split_multiblock_tiles ⟨0, 5, 0, 4⟩ 2 2 1 (by decide) (by decide)
     (by decide) (by decide) (by decide) (by decide)⟩

/-- Claim C3, evidence: on the uniform 2×2 raster of value 5 with target
block shape (2, 2) and sentinel 0, `find_blocks` emits the single ordinary
block twice (`_blocks.extend(_blocks)`, blocks.py line 511), so cell (0, 0)
belongs to two entries of the output list — the emitted blocks do not
partition the raster. -/
theorem find_blocks_duplicate_block :
    find_blocks [[5, 5], [5, 5]] 2 2 0 4 = [⟨0, 2, 0, 2⟩, ⟨0, 2, 0, 2⟩] ∧
    inRect ⟨0, 2, 0, 2⟩ 0 0 :=
  ⟨rfl, by decide⟩

/-- Claim C5, evidence: a block whose valid raster cells hold the two
distinct values 1 and 2 is processed normally by `fraction_inlay` (the
single-value precondition, distribute.py lines 140-149, is commented out,
so `MultivaluedBlockError` is never raised), and `imprint_constraints`
records the region under `ok`, not under `failed`. -/
theorem multivalued_block_not_failed :
    (fraction_inlay [1, 2] [0, 0] 1 100 .constraints 254 20).res
        = .ok ([2, 1], some 197) ∧
    imprint_constraints [([1, 2], [0, 0])] 1 100 .constraints 254 20
        = .ok (⟨[0], [], [], []⟩, [(0, 197)]) ∧
    (1 : Nat) ≠ 2 :=
  ⟨rfl, rfl, by decide⟩

/-- Claim C9, counterexample: on the 2×1 raster with both cells 5 and
sentinel 0, the returned count at (1, 0) is 2 — the vertical pass adds
run credit to column 0 on rows below the first — whereas the claim says
every column-0 count of a non-sentinel cell is 1. -/
theorem get_counts_col0_counterexample :
    gat (get_counts [[5], [5]] 0) 1 0 = 2 ∧
    gat ([[5], [5]] : Grid) 1 0 ≠ 0 ∧ (2 : Nat) ≠ 1 :=
  ⟨by decide, by decide, by decide⟩

/-- Claim C1, counterexample: with `invalid_in = raster` and
`invalid_value = 2 ≤ cell_max`, block [2, 10] against constraints [0, 8]
returns capacity 82 ≥ 0 but the total raster value over the region grows
from 12 to 20: the restore mask (distribute.py line 213) re-reads the
mutated raster, keeps increments deposited into the invalid cell, and
swaps a valid cell whose fill value equals `invalid_value` back to its
original value, all unnoticed by the conservation assert, which only sums
the originally-valid cells. -/
theorem fraction_inlay_conservation_counterexample :
    (fraction_inlay [2, 10] [0, 8] 1 100 .raster 2 50).res
        = .ok ([10, 10], some 82) ∧
    ¬ ((([2, 10] : List Nat).sum : Int)
        = (([10, 10] : List Nat).sum : Int) - min 0 82) :=
  ⟨rfl, by decide⟩

/-- Claim C4, counterexample: with `cell_unit = 2`, `cell_max = 3`, block
[2, 2] against constraints [0, 2] has a valid cell and non-negative block
capacity, yet the greedy fill pushes cell 0 to 4 > 3 and the in-loop
assertion fires. -/
theorem fraction_inlay_ceiling_counterexample :
    validIdx .none 254 [2, 2] [0, 2] ≠ [] ∧
    0 ≤ blockCapacityOf .none 254 [2, 2] [0, 2] 3 ∧
    (fraction_inlay [2, 2] [0, 2] 2 3 .none 254 10).res = .error .fillAssert :=
  ⟨by decide, by decide, rfl⟩

/-- Claim C8, counterexample: with `invalid_in = raster`,
`invalid_value = 101 > cell_max = 100` and `cell_unit = 2` not dividing the
valid raster total (1), the loop counter passes 0 without stopping and the
second iteration selects the invalid cell 0 (the selection trace is
[1, 0]). -/
theorem fraction_inlay_invalid_selected_counterexample :
    (100 : Nat) < 101 ∧
    validB .raster 101 [101, 1] [0, 99] 0 = false ∧
    (fraction_inlay [101, 1] [0, 99] 2 100 .raster 101 10).sel = [1, 0] :=
  ⟨by decide, by decide, rfl⟩

/-- Claim C10, counterexample: with `invalid_in = none`, one constraint
cell above `cell_max` makes the `assert np.all(valid_const_block <=
cell_max)` fail first, so the call ends in an `AssertionError`, not the
claimed `NameError`, although the block has cells and non-negative
capacity. -/
theorem fraction_inlay_nameerror_counterexample :
    validIdx .none 254 [0, 0] [150, 0] ≠ [] ∧
    0 ≤ blockCapacityOf .none 254 [0, 0] [150, 0] 100 ∧
    (fraction_inlay [0, 0] [150, 0] 1 100 .none 254 10).res
        = .error .constAssert ∧
    PyErr.constAssert ≠ PyErr.nameError :=
  ⟨by decide, by decide, rfl, by decide⟩

/-! Run-count lemmas for claim C9. -/

theorem vrun_sentinel {g : Grid} {out r c : Nat} (h : gat g r c = out) :
    vrun g out r c = 0 := by
  cases r with
  | zero => simp [vrun, ind, h]
  | succ r => simp [vrun, h]

theorem xcount_sentinel {g : Grid} {out r : Nat} :
    ∀ {c : Nat}, gat g r c = out → xcount g out r c = 0 := by
  intro c
  induction c with
  | zero => intro h; simp [xcount, ind, h]
  | succ c ih =>
    intro h
    unfold xcount
    rw [h]
    by_cases hc : out = gat g r c
    · rw [if_pos hc, ih hc.symm]
      simp [ind]
    · rw [if_neg hc]
      simp [ind]

theorem yadd_ind_mod_eq_vrun {g : Grid} {out : Nat} :
    ∀ r c, (yadd g out r c + ind out (gat g r c)) % 256
      = vrun g out r c % 256 := by
  intro r
  induction r with
  | zero => intro c; simp [yadd, vrun]
  | succ r ih =>
    intro c
    have hy : yadd g out (r + 1) c
        = (yadd g out r c + ind out (gat g r c)) % 256 *
          (if gat g (r + 1) c = gat g r c then 1 else 0) := rfl
    rw [hy, ih c]
    have hveq : vrun g out (r + 1) c
        = if gat g (r + 1) c = out then 0
          else (if gat g (r + 1) c = gat g r c then vrun g out r c else 0)
            + 1 := rfl
    by_cases h2 : gat g (r + 1) c = gat g r c
    · rw [if_pos h2, Nat.mul_one]
      by_cases h1 : gat g (r + 1) c = out
      · have h3 : gat g r c = out := by rw [← h2, h1]
        have hi : ind out (gat g (r + 1) c) = 0 := by simp [ind, h1]
        have hv : vrun g out (r + 1) c = 0 := by rw [hveq, if_pos h1]
        rw [vrun_sentinel h3, hi, hv]
      · have hi : ind out (gat g (r + 1) c) = 1 := by simp [ind, h1]
        have hv : vrun g out (r + 1) c = vrun g out r c + 1 := by
          rw [hveq, if_neg h1, if_pos h2]
        rw [hi, hv]
        omega
    · rw [if_neg h2, Nat.mul_zero]
      by_cases h1 : gat g (r + 1) c = out
      · have hi : ind out (gat g (r + 1) c) = 0 := by simp [ind, h1]
        have hv : vrun g out (r + 1) c = 0 := by rw [hveq, if_pos h1]
        rw [hi, hv]
      · have hi : ind out (gat g (r + 1) c) = 1 := by simp [ind, h1]
        have hv : vrun g out (r + 1) c = 1 := by
          rw [hveq, if_neg h1, if_neg h2]
        rw [hi, hv]

theorem get_counts_length {g : Grid} {out : Nat} :
    (get_counts g out).length = g.length := by
  simp [get_counts, gheight]

theorem get_counts_row {g : Grid} {out r : Nat} (hr : r < gheight g) :
    (get_counts g out).getD r [] =
      (List.range (gwidth g)).map (fun c =>
        (xcount g out r c + yadd g out r c) % 256) := by
  unfold get_counts
  rw [List.getD_eq_getElem?_getD, List.getElem?_map, List.getElem?_range hr]
  simp

theorem get_counts_at {g : Grid} {out r c : Nat}
    (hr : r < gheight g) (hc : c < gwidth g) :
    gat (get_counts g out) r c
      = (xcount g out r c + yadd g out r c) % 256 := by
  unfold gat
  rw [get_counts_row hr, List.getD_eq_getElem?_getD, List.getElem?_map,
    List.getElem?_range hc]
  simp

/-- Claim C9 (amended): `get_counts` returns a grid of the raster's shape
in which, for every row `r`, the final value of `count[r, 0]` equals the
length of the contiguous same-value vertical run of non-sentinel values
ending at `(r, 0)`, reduced modulo 256 (the counts array is `np.uint8`) —
for runs shorter than 256 cells it therefore equals the run length, and
it is 1 exactly when `raster[r, 0]` differs from the sentinel and does
not continue the run from row `r-1` — and every sentinel-valued cell
anywhere in the grid has count 0. -/
theorem get_counts_shape_col0_sentinel (g : Grid) (out : Nat) :
    (get_counts g out).length = g.length ∧
    (∀ r, r < gheight g → ((get_counts g out).getD r []).length = gwidth g) ∧
    (∀ r, r < gheight g → 0 < gwidth g →
      gat (get_counts g out) r 0 = vrun g out r 0 % 256) ∧
    (∀ r c, r < gheight g → c < gwidth g → gat g r c = out →
      gat (get_counts g out) r c = 0) := by
  refine ⟨get_counts_length, fun r hr => ?_, fun r hr hw => ?_, fun r c hr hc h => ?_⟩
  · rw [get_counts_row hr]
    simp
  · rw [get_counts_at hr hw]
    show (xcount g out r 0 + yadd g out r 0) % 256 = _
    unfold xcount
    rw [Nat.add_comm, yadd_ind_mod_eq_vrun]
  · rw [get_counts_at hr hc, xcount_sentinel h]
    have h2 := @yadd_ind_mod_eq_vrun g out r c
    rw [vrun_sentinel h] at h2
    have hi : ind out (gat g r c) = 0 := by simp [ind, h]
    rw [hi] at h2
    omega

/-- Witness for C9 (amended), at the 2×2 raster [[5, 0], [5, 7]] with
sentinel 0: the final column-0 count of row 1 equals the vertical run
length 2 (mod 256), and the sentinel cell (0, 1) has count 0. -/
theorem get_counts_shape_col0_sentinel_witness :
    gat (get_counts [[5, 0], [5, 7]] 0) 1 0
        = vrun [[5, 0], [5, 7]] 0 1 0 % 256 ∧
    gat (get_counts [[5, 0], [5, 7]] 0) 0 1 = 0 :=
  ⟨(get_counts_shape_col0_sentinel [[5, 0], [5, 7]] 0).2.2.1 1 (by decide)
      (by decide),
   (get_counts_shape_col0_sentinel [[5, 0], [5, 7]] 0).2.2.2 0 1 (by decide)
      (by decide) (by decide)⟩

/-! List helper lemmas for the redistribution proofs. -/

theorem getD_set_eq {l : List Nat} {i v : Nat} (h : i < l.length) :
    (l.set i v).getD i 0 = v := by
  induction l generalizing i with
  | nil => simp at h
  | cons x xs ih =>
    cases i with
    | zero => simp
    | succ i => simpa using ih (by simpa using h)

theorem getD_set_ne {l : List Nat} {i j v : Nat} (h : i ≠ j) :
    (l.set i v).getD j 0 = l.getD j 0 := by
  induction l generalizing i j with
  | nil => simp
  | cons x xs ih =>
    cases i with
    | zero =>
      cases j with
      | zero => exact absurd rfl h
      | succ j => simp
    | succ i =>
      cases j with
      | zero => simp
      | succ j => simpa using ih (fun hh => h (by rw [hh]))

theorem sum_set_add {l : List Nat} {i v : Nat} (h : i < l.length) :
    (l.set i v).sum + l.getD i 0 = l.sum + v := by
  induction l generalizing i with
  | nil => simp at h
  | cons x xs ih =>
    cases i with
    | zero => simp; omega
    | succ i =>
      have := ih (i := i) (by simpa using h)
      simp only [List.set_cons_succ, List.sum_cons, List.getD_cons_succ]
      omega

theorem getD_mem {l : List Nat} {j : Nat} (h : j < l.length) :
    l.getD j 0 ∈ l := by
  induction l generalizing j with
  | nil => simp at h
  | cons x xs ih =>
    cases j with
    | zero => simp
    | succ j => exact List.mem_cons_of_mem _ (ih (by simpa using h))

theorem sum_map_congr {L : List Nat} {f g : Nat → Nat}
    (h : ∀ j ∈ L, f j = g j) : (L.map f).sum = (L.map g).sum := by
  rw [List.map_congr_left h]

theorem sum_map_getD_set_not_mem {L : List Nat} {g : List Nat} {i v : Nat}
    (hni : i ∉ L) :
    (L.map ((g.set i v).getD · 0)).sum = (L.map (g.getD · 0)).sum :=
  sum_map_congr (fun _ hk => getD_set_ne (fun he => hni (he ▸ hk)))

theorem sum_map_getD_set_mem {L : List Nat} (hnd : L.Nodup) {g : List Nat}
    {i v : Nat} (hi : i ∈ L) (hlen : i < g.length) :
    (L.map ((g.set i v).getD · 0)).sum + g.getD i 0
      = (L.map (g.getD · 0)).sum + v := by
  induction L with
  | nil => simp at hi
  | cons j L ih =>
    rcases List.mem_cons.1 hi with rfl | hi'
    · have hnotin : i ∉ L := (List.nodup_cons.1 hnd).1
      simp only [List.map_cons, List.sum_cons]
      rw [getD_set_eq hlen, sum_map_getD_set_not_mem hnotin]
      omega
    · by_cases hji : j = i
      · exact absurd (hji ▸ hi') (List.nodup_cons.1 hnd).1
      · simp only [List.map_cons, List.sum_cons]
        rw [getD_set_ne (fun he => hji he.symm)]
        have := ih (List.nodup_cons.1 hnd).2 hi'
        omega

theorem sum_filter_split (L : List Nat) (p : Nat → Bool) (f : Nat → Nat) :
    ((L.filter p).map f).sum + ((L.filter (fun i => ! p i)).map f).sum
      = (L.map f).sum := by
  induction L with
  | nil => simp
  | cons x L ih =>
    by_cases hx : p x
    · simp only [List.filter_cons, hx, if_pos, Bool.not_true, if_neg,
        List.map_cons, List.sum_cons, Bool.false_eq_true, not_false_eq_true]
      omega
    · simp only [List.filter_cons, hx, Bool.not_false, if_pos,
        List.map_cons, List.sum_cons, Bool.false_eq_true, if_neg,
        not_false_eq_true, eq_self_iff_true, if_true]
      omega

theorem le_sum_of_forall_le (L : List Nat) (f : Nat → Nat) (m : Nat)
    (h : ∀ x ∈ L, m ≤ f x) : L.length * m ≤ (L.map f).sum := by
  induction L with
  | nil => simp
  | cons x L ih =>
    simp only [List.map_cons, List.sum_cons, List.length_cons]
    have h1 := h x (List.mem_cons_self ..)
    have h2 := ih (fun y hy => h y (List.mem_cons_of_mem _ hy))
    rw [Nat.succ_mul]
    omega

theorem pointwise_eq_of_sum_le {L : List Nat} {f h : Nat → Nat}
    (hle : ∀ i ∈ L, f i ≤ h i) (hsum : (L.map h).sum ≤ (L.map f).sum) :
    ∀ i ∈ L, h i = f i := by
  induction L with
  | nil => simp
  | cons x L ih =>
    simp only [List.map_cons, List.sum_cons] at hsum
    have hx := hle x (List.mem_cons_self ..)
    have htail : (L.map f).sum ≤ (L.map h).sum :=
      List.sum_le_sum (fun j hj => hle j (List.mem_cons_of_mem _ hj))
    intro i hi
    rcases List.mem_cons.1 hi with rfl | hi'
    · omega
    · exact ih (fun j hj => hle j (List.mem_cons_of_mem _ hj)) (by omega) i hi'

/-! Lemmas about `listMin` and `idxOfMin` (numpy `min`/`argmin`). -/

theorem listMin_le {l : List Nat} : ∀ x ∈ l, listMin l ≤ x := by
  induction l with
  | nil => simp
  | cons a l ih =>
    cases l with
    | nil =>
      intro x hx
      simp only [List.mem_singleton] at hx
      subst hx
      exact Nat.le_refl _
    | cons b l' =>
      intro x hx
      rcases List.mem_cons.1 hx with rfl | hx'
      · exact min_le_left _ _
      · exact le_trans (min_le_right _ _) (ih x hx')

theorem idxOfMin_lt_length {l : List Nat} (h : l ≠ []) :
    idxOfMin l < l.length := by
  induction l with
  | nil => exact absurd rfl h
  | cons a l ih =>
    cases l with
    | nil => simp [idxOfMin]
    | cons b l' =>
      show (if a ≤ listMin (b :: l') then 0 else idxOfMin (b :: l') + 1) < _
      split
      · simp
      · have := ih (by simp)
        simpa [Nat.succ_lt_succ_iff] using this

theorem getD_idxOfMin {l : List Nat} (h : l ≠ []) :
    l.getD (idxOfMin l) 0 = listMin l := by
  induction l with
  | nil => exact absurd rfl h
  | cons a l ih =>
    cases l with
    | nil => simp [idxOfMin, listMin]
    | cons b l' =>
      show (a :: b :: l').getD
        (if a ≤ listMin (b :: l') then 0 else idxOfMin (b :: l') + 1) 0
          = min a (listMin (b :: l'))
      split
      · next hle => simp [min_eq_left hle]
      · next hle =>
        simp only [List.getD_cons_succ]
        rw [ih (by simp), min_eq_right (le_of_not_ge hle)]

theorem getD_zipWith_add {g c : List Nat} {i : Nat} (hi : i < g.length)
    (hc : c.length = g.length) :
    (List.zipWith (· + ·) g c).getD i 0 = g.getD i 0 + c.getD i 0 := by
  induction g generalizing c i with
  | nil => simp at hi
  | cons x g ih =>
    cases c with
    | nil => simp at hc
    | cons y c =>
      cases i with
      | zero => simp
      | succ i =>
        simp only [List.zipWith_cons_cons, List.getD_cons_succ]
        exact ih (by simpa using hi) (by simpa using hc)

theorem length_zipWith_add {g c : List Nat} (hc : c.length = g.length) :
    (List.zipWith (· + ·) g c).length = g.length := by
  simp [hc]

/-! Lemmas about the fill loop of `fraction_inlay`. -/

theorem fillLoop_zero {const : List Nat} {u cmax : Nat} {g : List Nat}
    {rem : Int} :
    fillLoop const u cmax 0 g rem =
      if rem = 0 then ⟨g, [], Option.none⟩ else ⟨g, [], some .outOfFuel⟩ := rfl

theorem fillLoop_succ {const : List Nat} {u cmax fuel : Nat} {g : List Nat}
    {rem : Int} :
    fillLoop const u cmax (fuel + 1) g rem =
      if rem = 0 then ⟨g, [], Option.none⟩
      else
        let i := idxOfMin (List.zipWith (· + ·) g const)
        let g' := g.set i (g.getD i 0 + u)
        if g'.getD i 0 ≤ cmax then
          let r := fillLoop const u cmax fuel g' (rem - (u : Int))
          ⟨r.g, i :: r.sel, r.err⟩
        else ⟨g', [i], some .fillAssert⟩ := rfl

theorem fillLoop_length {const : List Nat} {u cmax : Nat} :
    ∀ {fuel : Nat} {g : List Nat} {rem : Int},
      (fillLoop const u cmax fuel g rem).g.length = g.length := by
  intro fuel
  induction fuel with
  | zero =>
    intro g rem
    rw [fillLoop_zero]
    split <;> rfl
  | succ fuel ih =>
    intro g rem
    rw [fillLoop_succ]
    split
    · rfl
    · dsimp only
      split
      · simpa [List.length_set] using
          @ih (g.set (idxOfMin (List.zipWith (· + ·) g const))
            (g.getD (idxOfMin (List.zipWith (· + ·) g const)) 0 + u))
            (rem - (u : Int))
      · simp [List.length_set]

theorem fillLoop_not_sel {const : List Nat} {u cmax : Nat} :
    ∀ {fuel : Nat} {g : List Nat} {rem : Int} {j : Nat},
      j ∉ (fillLoop const u cmax fuel g rem).sel →
      (fillLoop const u cmax fuel g rem).g.getD j 0 = g.getD j 0 := by
  intro fuel
  induction fuel with
  | zero =>
    intro g rem j _
    rw [fillLoop_zero]
    rw [fillLoop_zero] at *
    split <;> rfl
  | succ fuel ih =>
    intro g rem j hj
    rw [fillLoop_succ] at hj ⊢
    split at hj
    · next h0 => rw [if_pos h0]
    · next h0 =>
      rw [if_neg h0]
      dsimp only at hj ⊢
      split at hj
      · next hcheck =>
        rw [if_pos hcheck]
        dsimp only at hj ⊢
        simp only [List.mem_cons, not_or] at hj
        rw [ih hj.2, getD_set_ne (fun he => hj.1 he.symm)]
      · next hcheck =>
        rw [if_neg hcheck]
        dsimp only at hj ⊢
        simp only [List.mem_singleton] at hj
        rw [getD_set_ne (fun he => hj he.symm)]

theorem fillLoop_monotone {const : List Nat} {u cmax : Nat} :
    ∀ {fuel : Nat} {g : List Nat} {rem : Int} {j : Nat},
      g.getD j 0 ≤ (fillLoop const u cmax fuel g rem).g.getD j 0 := by
  intro fuel
  induction fuel with
  | zero =>
    intro g rem j
    rw [fillLoop_zero]
    split <;> exact Nat.le_refl _
  | succ fuel ih =>
    intro g rem j
    rw [fillLoop_succ]
    split
    · exact Nat.le_refl _
    · dsimp only
      split
      · refine le_trans ?_ (@ih _ (rem - (u : Int)) _)
        by_cases hji : idxOfMin (List.zipWith (· + ·) g const) = j
        · subst hji
          by_cases hlt : idxOfMin (List.zipWith (· + ·) g const) < g.length
          · rw [getD_set_eq hlt]; omega
          · rw [List.set_eq_of_length_le (by omega)]
        · rw [getD_set_ne hji]
      · by_cases hji : idxOfMin (List.zipWith (· + ·) g const) = j
        · subst hji
          by_cases hlt : idxOfMin (List.zipWith (· + ·) g const) < g.length
          · show _ ≤ (List.set g _ _).getD _ 0
            rw [getD_set_eq hlt]; omega
          · show _ ≤ (List.set g _ _).getD _ 0
            rw [List.set_eq_of_length_le (by omega)]
        · show _ ≤ (List.set g _ _).getD _ 0
          rw [getD_set_ne hji]

theorem fillLoop_sum {const : List Nat} {u cmax : Nat} :
    ∀ {fuel : Nat} {g : List Nat} {rem : Int},
      const.length = g.length → g ≠ [] →
      (fillLoop const u cmax fuel g rem).err = Option.none →
      ((fillLoop const u cmax fuel g rem).g.sum : Int) = (g.sum : Int) + rem := by
  intro fuel
  induction fuel with
  | zero =>
    intro g rem _ _ herr
    rw [fillLoop_zero] at herr ⊢
    split at herr
    · next h0 => subst h0; simp
    · exact absurd herr (by simp)
  | succ fuel ih =>
    intro g rem hc hg herr
    rw [fillLoop_succ] at herr ⊢
    split at herr
    · next h0 =>
      subst h0
      rw [if_pos rfl]
      simp
    · next h0 =>
      rw [if_neg h0]
      dsimp only at herr ⊢
      split at herr
      all_goals rename_i hcheck
      · rw [if_pos hcheck]
        dsimp only at herr ⊢
        have hlen : (List.zipWith (· + ·) g const) ≠ [] := by
          have := length_zipWith_add (g := g) (c := const) hc
          intro hnil
          rw [hnil] at this
          simp at this
          exact hg (List.eq_nil_of_length_eq_zero this.symm)
        have hil : idxOfMin (List.zipWith (· + ·) g const) < g.length := by
          have := idxOfMin_lt_length hlen
          rwa [length_zipWith_add hc] at this
        have hsum := sum_set_add
          (l := g) (i := idxOfMin (List.zipWith (· + ·) g const))
          (v := g.getD (idxOfMin (List.zipWith (· + ·) g const)) 0 + u) hil
        have hrec := @ih (g.set (idxOfMin (List.zipWith (· + ·) g const))
            (g.getD (idxOfMin (List.zipWith (· + ·) g const)) 0 + u))
          (rem - (u : Int))
          (by rw [List.length_set]; exact hc)
          (by intro hnil; apply hg; have := congrArg List.length hnil;
              rw [List.length_set] at this;
              exact List.eq_nil_of_length_eq_zero this)
          herr
        rw [hrec]
        have : ((g.set (idxOfMin (List.zipWith (· + ·) g const))
            (g.getD (idxOfMin (List.zipWith (· + ·) g const)) 0 + u)).sum : Int)
            = (g.sum : Int) + u := by
          omega
        rw [this]
        ring
      · exact absurd herr (by simp)

theorem fillLoop_bounded {const : List Nat} {u cmax : Nat} :
    ∀ {fuel : Nat} {g : List Nat} {rem : Int},
      (fillLoop const u cmax fuel g rem).err = Option.none →
      ∀ j, (fillLoop const u cmax fuel g rem).g.getD j 0
        ≤ max (g.getD j 0) cmax := by
  intro fuel
  induction fuel with
  | zero =>
    intro g rem herr j
    rw [fillLoop_zero] at herr ⊢
    split at herr
    · next h0 => rw [if_pos h0]; exact le_max_left _ _
    · exact absurd herr (by simp)
  | succ fuel ih =>
    intro g rem herr j
    rw [fillLoop_succ] at herr ⊢
    split at herr
    · next h0 => rw [if_pos h0]; exact le_max_left _ _
    · next h0 =>
      rw [if_neg h0]
      dsimp only at herr ⊢
      split at herr
      · next hcheck =>
        rw [if_pos hcheck]
        dsimp only at herr ⊢
        have hrec := @ih (g.set (idxOfMin (List.zipWith (· + ·) g const))
            (g.getD (idxOfMin (List.zipWith (· + ·) g const)) 0 + u))
          (rem - (u : Int)) herr j
        refine le_trans hrec ?_
        by_cases hji : idxOfMin (List.zipWith (· + ·) g const) = j
        · subst hji
          by_cases hlt : idxOfMin (List.zipWith (· + ·) g const) < g.length
          · rw [getD_set_eq hlt] at hcheck ⊢
            omega
          · rw [List.set_eq_of_length_le (by omega)]
        · rw [getD_set_ne hji]
      · exact absurd herr (by simp)

theorem sum_map_add (L : List Nat) (f h : Nat → Nat) :
    (L.map (fun j => f j + h j)).sum = (L.map f).sum + (L.map h).sum := by
  induction L with
  | nil => simp
  | cons x L ih =>
    simp only [List.map_cons, List.sum_cons, ih]
    omega

/-- Master invariant of the greedy fill: as long as the remaining quantity
is a non-negative multiple of `cell_unit`, the valid loads leave room
(capacity-style bound), and every invalid cell's load exceeds `cell_max`,
the first-minimum selection only ever picks valid cells. -/
theorem fillLoop_sel_valid {const : List Nat} {u cmax : Nat}
    (valid : Nat → Bool) (V : List Nat) (hVnd : V.Nodup) :
    ∀ {fuel : Nat} {g : List Nat} {rem : Int},
      const.length = g.length →
      (∀ j, j ∈ V ↔ (j < g.length ∧ valid j = true)) →
      V ≠ [] →
      0 ≤ rem → (u : Int) ∣ rem →
      ((V.map (fun j => g.getD j 0 + const.getD j 0)).sum : Int) + rem
        ≤ (V.length : Int) * (cmax : Int) →
      (∀ j, j < g.length → valid j = false →
        cmax < g.getD j 0 + const.getD j 0) →
      ∀ j ∈ (fillLoop const u cmax fuel g rem).sel, valid j = true := by
  intro fuel
  induction fuel with
  | zero =>
    intro g rem _ _ _ _ _ _ _ j hj
    rw [fillLoop_zero] at hj
    split at hj <;> simp at hj
  | succ fuel ih =>
    intro g rem hc hViff hVne hrem hdvd hsum hinv j hj
    rw [fillLoop_succ] at hj
    split at hj
    · simp at hj
    · next h0 =>
      dsimp only at hj
      -- shared facts about the chosen index
      have hu0 : u ≠ 0 := by
        rintro rfl
        rw [Nat.cast_zero, zero_dvd_iff] at hdvd
        exact h0 hdvd
      have hremu : (u : Int) ≤ rem :=
        Int.le_of_dvd (lt_of_le_of_ne hrem (Ne.symm h0)) hdvd
      obtain ⟨j1, hj1⟩ := List.exists_mem_of_ne_nil V hVne
      have hj1lt : j1 < g.length := ((hViff j1).1 hj1).1
      have hglen : 0 < g.length := by omega
      have hloadlen : (List.zipWith (· + ·) g const).length = g.length :=
        length_zipWith_add hc
      have hloadne : List.zipWith (· + ·) g const ≠ [] := by
        intro hnil
        rw [hnil] at hloadlen
        simp at hloadlen
        omega
      have hIlt : idxOfMin (List.zipWith (· + ·) g const) < g.length := by
        have := idxOfMin_lt_length hloadne
        omega
      -- some valid cell has load below cmax
      have hex : ∃ j0 ∈ V, g.getD j0 0 + const.getD j0 0 < cmax := by
        by_contra hno
        push_neg at hno
        have hbig := le_sum_of_forall_le V
          (fun j => g.getD j 0 + const.getD j 0) cmax hno
        have : ((V.length * cmax : Nat) : Int)
            ≤ ((V.map (fun j => g.getD j 0 + const.getD j 0)).sum : Int) := by
          exact_mod_cast hbig
        push_cast at this
        omega
      obtain ⟨j0, hj0V, hj0lt⟩ := hex
      have hj0len : j0 < g.length := ((hViff j0).1 hj0V).1
      have hminval : (List.zipWith (· + ·) g const).getD
          (idxOfMin (List.zipWith (· + ·) g const)) 0
            = listMin (List.zipWith (· + ·) g const) := getD_idxOfMin hloadne
      have hminle : listMin (List.zipWith (· + ·) g const)
          ≤ (List.zipWith (· + ·) g const).getD j0 0 :=
        listMin_le _ (getD_mem (by omega))
      have hload_i : (List.zipWith (· + ·) g const).getD
          (idxOfMin (List.zipWith (· + ·) g const)) 0
            = g.getD (idxOfMin (List.zipWith (· + ·) g const)) 0
              + const.getD (idxOfMin (List.zipWith (· + ·) g const)) 0 :=
        getD_zipWith_add hIlt hc
      have hload_j0 : (List.zipWith (· + ·) g const).getD j0 0
          = g.getD j0 0 + const.getD j0 0 := getD_zipWith_add hj0len hc
      have hloadlt : g.getD (idxOfMin (List.zipWith (· + ·) g const)) 0
          + const.getD (idxOfMin (List.zipWith (· + ·) g const)) 0 < cmax := by
        rw [← hload_i, hminval]
        rw [hload_j0] at hminle
        omega
      have hvalid_i : valid (idxOfMin (List.zipWith (· + ·) g const)) = true := by
        by_contra hvi
        have := hinv _ hIlt (Bool.not_eq_true _ ▸ Bool.eq_false_iff.2 hvi)
        omega
      have hiV : idxOfMin (List.zipWith (· + ·) g const) ∈ V :=
        (hViff _).2 ⟨hIlt, hvalid_i⟩
      split at hj
      · next hcheck =>
        dsimp only at hj
        rcases List.mem_cons.1 hj with rfl | hj'
        · exact hvalid_i
        · -- recurse on the updated state
          refine @ih (g.set (idxOfMin (List.zipWith (· + ·) g const))
              (g.getD (idxOfMin (List.zipWith (· + ·) g const)) 0 + u))
            (rem - (u : Int))
            (by rw [List.length_set]; exact hc)
            (fun k => by rw [List.length_set]; exact hViff k)
            hVne (by omega) (dvd_sub hdvd (dvd_refl _)) ?_ ?_ j hj'
          · -- capacity bound is preserved
            have hsplit := sum_map_add V
              ((g.set (idxOfMin (List.zipWith (· + ·) g const))
                (g.getD (idxOfMin (List.zipWith (· + ·) g const)) 0 + u)).getD · 0)
              (const.getD · 0)
            have hsplit0 := sum_map_add V (g.getD · 0) (const.getD · 0)
            have hset := sum_map_getD_set_mem hVnd (g := g)
              (v := g.getD (idxOfMin (List.zipWith (· + ·) g const)) 0 + u)
              hiV hIlt
            have hsum' := hsum
            rw [show (fun j => g.getD j 0 + const.getD j 0)
              = (fun j => (g.getD · 0) j + (const.getD · 0) j) from rfl,
              sum_map_add] at hsum'
            rw [show (fun j => (g.set (idxOfMin (List.zipWith (· + ·) g const))
                (g.getD (idxOfMin (List.zipWith (· + ·) g const)) 0 + u)).getD j 0
                + const.getD j 0)
              = (fun j => ((g.set (idxOfMin (List.zipWith (· + ·) g const))
                (g.getD (idxOfMin (List.zipWith (· + ·) g const)) 0 + u)).getD · 0) j
                + (const.getD · 0) j) from rfl, sum_map_add]
            push_cast at hsum' ⊢
            have hsetZ : ((V.map ((g.set (idxOfMin (List.zipWith (· + ·) g const))
                (g.getD (idxOfMin (List.zipWith (· + ·) g const)) 0 + u)).getD · 0)).sum : Int)
                + (g.getD (idxOfMin (List.zipWith (· + ·) g const)) 0 : Int)
                = ((V.map (g.getD · 0)).sum : Int)
                  + ((g.getD (idxOfMin (List.zipWith (· + ·) g const)) 0 + u : Nat) : Int) := by
              exact_mod_cast congrArg (Nat.cast : Nat → Int) hset
            push_cast at hsetZ
            omega
          · -- invalid loads are untouched
            intro k hk hkf
            rw [List.length_set] at hk
            have hki : idxOfMin (List.zipWith (· + ·) g const) ≠ k := by
              rintro rfl
              rw [hvalid_i] at hkf
              exact Bool.true_eq_false ▸ hkf.symm ▸ (by simp at hkf)
            rw [getD_set_ne hki]
            exact hinv k hk hkf
      · next hcheck =>
        dsimp only at hj
        rcases List.mem_singleton.1 hj with rfl
        exact hvalid_i

/-- Master invariant of the greedy fill for `cell_unit = 1`: under the
capacity-style bound on valid loads, the in-loop assertion can never fire,
the loop completes within `rem` iterations of fuel, and every cell either
respects the per-cell ceiling or was never touched. -/
theorem fillLoop_one {const : List Nat} {cmax : Nat}
    (valid : Nat → Bool) (V : List Nat) (hVnd : V.Nodup) (gref : List Nat) :
    ∀ {fuel : Nat} {g : List Nat} {rem : Int},
      const.length = g.length →
      (∀ j, j ∈ V ↔ (j < g.length ∧ valid j = true)) →
      V ≠ [] →
      0 ≤ rem →
      ((V.map (fun j => g.getD j 0 + const.getD j 0)).sum : Int) + rem
        ≤ (V.length : Int) * (cmax : Int) →
      (∀ j, j < g.length →
        g.getD j 0 + const.getD j 0 ≤ cmax ∨ g.getD j 0 = gref.getD j 0) →
      ((fillLoop const 1 cmax fuel g rem).err ≠ some .fillAssert) ∧
      (rem ≤ (fuel : Int) →
        (fillLoop const 1 cmax fuel g rem).err = Option.none) ∧
      ((fillLoop const 1 cmax fuel g rem).err = Option.none →
        ∀ j, j < g.length →
          (fillLoop const 1 cmax fuel g rem).g.getD j 0 + const.getD j 0 ≤ cmax ∨
          (fillLoop const 1 cmax fuel g rem).g.getD j 0 = gref.getD j 0) := by
  intro fuel
  induction fuel with
  | zero =>
    intro g rem _ _ _ hrem _ hCI
    rw [fillLoop_zero]
    by_cases h0 : rem = 0
    · rw [if_pos h0]
      exact ⟨by simp, fun _ => rfl, fun _ => hCI⟩
    · rw [if_neg h0]
      exact ⟨by simp, fun hle => absurd (by omega : rem = 0) h0,
        fun herr => absurd herr (by simp)⟩
  | succ fuel ih =>
    intro g rem hc hViff hVne hrem hsum hCI
    rw [fillLoop_succ]
    by_cases h0 : rem = 0
    · rw [if_pos h0]
      exact ⟨by simp, fun _ => rfl, fun _ => hCI⟩
    · rw [if_neg h0]
      dsimp only
      obtain ⟨j1, hj1⟩ := List.exists_mem_of_ne_nil V hVne
      have hj1lt : j1 < g.length := ((hViff j1).1 hj1).1
      have hloadlen : (List.zipWith (· + ·) g const).length = g.length :=
        length_zipWith_add hc
      have hloadne : List.zipWith (· + ·) g const ≠ [] := by
        intro hnil
        rw [hnil] at hloadlen
        simp at hloadlen
        omega
      have hIlt : idxOfMin (List.zipWith (· + ·) g const) < g.length := by
        have := idxOfMin_lt_length hloadne
        omega
      have hex : ∃ j0 ∈ V, g.getD j0 0 + const.getD j0 0 < cmax := by
        by_contra hno
        push_neg at hno
        have hbig := le_sum_of_forall_le V
          (fun j => g.getD j 0 + const.getD j 0) cmax hno
        have : ((V.length * cmax : Nat) : Int)
            ≤ ((V.map (fun j => g.getD j 0 + const.getD j 0)).sum : Int) := by
          exact_mod_cast hbig
        push_cast at this
        omega
      obtain ⟨j0, hj0V, hj0lt⟩ := hex
      have hj0len : j0 < g.length := ((hViff j0).1 hj0V).1
      have hminval : (List.zipWith (· + ·) g const).getD
          (idxOfMin (List.zipWith (· + ·) g const)) 0
            = listMin (List.zipWith (· + ·) g const) := getD_idxOfMin hloadne
      have hminle : listMin (List.zipWith (· + ·) g const)
          ≤ (List.zipWith (· + ·) g const).getD j0 0 :=
        listMin_le _ (getD_mem (by omega))
      have hload_i : (List.zipWith (· + ·) g const).getD
          (idxOfMin (List.zipWith (· + ·) g const)) 0
            = g.getD (idxOfMin (List.zipWith (· + ·) g const)) 0
              + const.getD (idxOfMin (List.zipWith (· + ·) g const)) 0 :=
        getD_zipWith_add hIlt hc
      have hload_j0 : (List.zipWith (· + ·) g const).getD j0 0
          = g.getD j0 0 + const.getD j0 0 := getD_zipWith_add hj0len hc
      have hloadlt : g.getD (idxOfMin (List.zipWith (· + ·) g const)) 0
          + const.getD (idxOfMin (List.zipWith (· + ·) g const)) 0 < cmax := by
        rw [← hload_i, hminval]
        rw [hload_j0] at hminle
        omega
      have hset_i : (g.set (idxOfMin (List.zipWith (· + ·) g const))
          (g.getD (idxOfMin (List.zipWith (· + ·) g const)) 0 + 1)).getD
            (idxOfMin (List.zipWith (· + ·) g const)) 0
          = g.getD (idxOfMin (List.zipWith (· + ·) g const)) 0 + 1 :=
        getD_set_eq hIlt
      have hcheck : (g.set (idxOfMin (List.zipWith (· + ·) g const))
          (g.getD (idxOfMin (List.zipWith (· + ·) g const)) 0 + 1)).getD
            (idxOfMin (List.zipWith (· + ·) g const)) 0 ≤ cmax := by
        rw [hset_i]
        omega
      rw [if_pos hcheck]
      dsimp only
      have hrec := @ih (g.set (idxOfMin (List.zipWith (· + ·) g const))
            (g.getD (idxOfMin (List.zipWith (· + ·) g const)) 0 + 1))
          (rem - (1 : Int))
          (by rw [List.length_set]; exact hc)
          (fun k => by rw [List.length_set]; exact hViff k)
          hVne (by omega) ?_ ?_
      · refine ⟨hrec.1, fun hle => hrec.2.1 (by push_cast at hle ⊢; omega), ?_⟩
        intro herr j hjlen
        exact hrec.2.2 herr j (by rw [List.length_set]; exact hjlen)
      · -- capacity bound is preserved (the chosen cell may be invalid)
        by_cases hiV : idxOfMin (List.zipWith (· + ·) g const) ∈ V
        · have hset := sum_map_getD_set_mem hVnd (g := g)
            (v := g.getD (idxOfMin (List.zipWith (· + ·) g const)) 0 + 1)
            hiV hIlt
          rw [show (fun j => (g.set (idxOfMin (List.zipWith (· + ·) g const))
              (g.getD (idxOfMin (List.zipWith (· + ·) g const)) 0 + 1)).getD j 0
              + const.getD j 0)
            = (fun j => ((g.set (idxOfMin (List.zipWith (· + ·) g const))
              (g.getD (idxOfMin (List.zipWith (· + ·) g const)) 0 + 1)).getD · 0) j
              + (const.getD · 0) j) from rfl, sum_map_add]
          rw [show (fun j => g.getD j 0 + const.getD j 0)
            = (fun j => (g.getD · 0) j + (const.getD · 0) j) from rfl,
            sum_map_add] at hsum
          have hsetZ : ((V.map ((g.set (idxOfMin (List.zipWith (· + ·) g const))
              (g.getD (idxOfMin (List.zipWith (· + ·) g const)) 0 + 1)).getD · 0)).sum : Int)
              + (g.getD (idxOfMin (List.zipWith (· + ·) g const)) 0 : Int)
              = ((V.map (g.getD · 0)).sum : Int)
                + ((g.getD (idxOfMin (List.zipWith (· + ·) g const)) 0 + 1 : Nat) : Int) := by
            exact_mod_cast congrArg (Nat.cast : Nat → Int) hset
          push_cast at hsum hsetZ ⊢
          omega
        · have hsame := sum_map_getD_set_not_mem
            (L := V) (g := g)
            (v := g.getD (idxOfMin (List.zipWith (· + ·) g const)) 0 + 1) hiV
          rw [show (fun j => (g.set (idxOfMin (List.zipWith (· + ·) g const))
              (g.getD (idxOfMin (List.zipWith (· + ·) g const)) 0 + 1)).getD j 0
              + const.getD j 0)
            = (fun j => ((g.set (idxOfMin (List.zipWith (· + ·) g const))
              (g.getD (idxOfMin (List.zipWith (· + ·) g const)) 0 + 1)).getD · 0) j
              + (const.getD · 0) j) from rfl, sum_map_add, hsame]
          rw [show (fun j => g.getD j 0 + const.getD j 0)
            = (fun j => (g.getD · 0) j + (const.getD · 0) j) from rfl,
            sum_map_add] at hsum
          push_cast at hsum ⊢
          omega
      · -- ceiling-or-untouched is preserved
        intro k hk
        rw [List.length_set] at hk
        by_cases hki : idxOfMin (List.zipWith (· + ·) g const) = k
        · subst hki
          rw [hset_i]
          exact Or.inl (by omega)
        · rw [getD_set_ne hki]
          exact hCI k hk

/-! Plumbing lemmas for `fraction_inlay`. -/

theorem validIdx_nodup {mode : InvalidCellsIn} {inv : Nat}
    {r c : List Nat} : (validIdx mode inv r c).Nodup :=
  (List.nodup_range _).filter _

theorem mem_validIdx {mode : InvalidCellsIn} {inv : Nat} {r c : List Nat}
    {j : Nat} :
    j ∈ validIdx mode inv r c ↔ (j < r.length ∧ validB mode inv r c j = true) := by
  simp [validIdx, List.mem_filter, List.mem_range]

theorem mem_invIdx {mode : InvalidCellsIn} {inv : Nat} {r c : List Nat}
    {j : Nat} :
    j ∈ invIdx mode inv r c ↔ (j < r.length ∧ validB mode inv r c j = false) := by
  simp [invIdx, List.mem_filter, List.mem_range]

theorem sum_split_valid {mode : InvalidCellsIn} {inv : Nat} {r c : List Nat}
    (f : Nat → Nat) :
    ((validIdx mode inv r c).map f).sum + ((invIdx mode inv r c).map f).sum
      = ((List.range r.length).map f).sum :=
  sum_filter_split _ _ _

theorem sum_eq_sum_getD (l : List Nat) :
    l.sum = ((List.range l.length).map (l.getD · 0)).sum := by
  induction l with
  | nil => simp
  | cons x xs ih =>
    rw [List.length_cons, List.range_succ_eq_map, List.map_cons, List.map_map,
      List.sum_cons]
    have hmap : (List.range xs.length).map
        ((fun i => (x :: xs).getD i 0) ∘ Nat.succ)
        = (List.range xs.length).map (fun i => xs.getD i 0) :=
      List.map_congr_left (fun i _ => by simp)
    rw [hmap]
    simp only [List.getD_cons_zero, List.sum_cons]
    omega

theorem sum_sub_distrib (L : List Nat) (f : Nat → Nat) (m : Nat)
    (h : ∀ i ∈ L, f i ≤ m) :
    (L.map (fun i => m - f i)).sum + (L.map f).sum = L.length * m := by
  induction L with
  | nil => simp
  | cons x L ih =>
    simp only [List.map_cons, List.sum_cons, List.length_cons]
    have h1 := h x (List.mem_cons_self ..)
    have h2 := ih (fun y hy => h y (List.mem_cons_of_mem _ hy))
    rw [Nat.succ_mul]
    omega

theorem getD_map_range {n : Nat} {f : Nat → Nat} {i : Nat} (hi : i < n) :
    ((List.range n).map f).getD i 0 = f i := by
  rw [List.getD_eq_getElem?_getD, List.getElem?_map, List.getElem?_range hi]
  simp

theorem length_map_range {n : Nat} {f : Nat → Nat} :
    ((List.range n).map f).length = n := by simp

theorem fraction_inlay_ignored_eq {raster const : List Nat} {u cmax : Nat}
    {mode : InvalidCellsIn} {inv fuel : Nat}
    (hV : validIdx mode inv raster const = []) :
    fraction_inlay raster const u cmax mode inv fuel
      = ⟨.ok (raster, Option.none), []⟩ := by
  unfold fraction_inlay
  rw [if_pos hV]

theorem fraction_inlay_constAssert_eq {raster const : List Nat} {u cmax : Nat}
    {mode : InvalidCellsIn} {inv fuel : Nat}
    (hV : validIdx mode inv raster const ≠ [])
    (hconst : ¬ ∀ i ∈ validIdx mode inv raster const, const.getD i 0 ≤ cmax) :
    fraction_inlay raster const u cmax mode inv fuel
      = ⟨.error .constAssert, []⟩ := by
  unfold fraction_inlay
  dsimp only
  rw [if_neg hV, if_pos hconst]

theorem fraction_inlay_jam_eq {raster const : List Nat} {u cmax : Nat}
    {mode : InvalidCellsIn} {inv fuel : Nat}
    (hV : validIdx mode inv raster const ≠ [])
    (hconst : ∀ i ∈ validIdx mode inv raster const, const.getD i 0 ≤ cmax)
    (hjam : (validIdx mode inv raster const).length * cmax
      < constTotalOf mode inv raster const + rasterTotalOf mode inv raster const) :
    fraction_inlay raster const u cmax mode inv fuel
      = ⟨.ok (jamOf mode inv raster const cmax,
          some (blockCapacityOf mode inv raster const cmax)), []⟩ := by
  unfold fraction_inlay
  dsimp only
  rw [if_neg hV, if_neg (not_not_intro hconst), if_pos hjam]

theorem fraction_inlay_fill_eq {raster const : List Nat} {u cmax : Nat}
    {mode : InvalidCellsIn} {inv fuel : Nat}
    (hV : validIdx mode inv raster const ≠ [])
    (hconst : ∀ i ∈ validIdx mode inv raster const, const.getD i 0 ≤ cmax)
    (hjam : ¬ ((validIdx mode inv raster const).length * cmax
      < constTotalOf mode inv raster const + rasterTotalOf mode inv raster const)) :
    fraction_inlay raster const u cmax mode inv fuel =
      (match (fillLoop const u cmax fuel (wipedOf mode inv raster const)
          ((rasterTotalOf mode inv raster const : Nat) : Int)).err with
       | some e => ⟨.error e,
          (fillLoop const u cmax fuel (wipedOf mode inv raster const)
            ((rasterTotalOf mode inv raster const : Nat) : Int)).sel⟩
       | Option.none =>
         match mode with
         | .none => ⟨.error .nameError,
            (fillLoop const u cmax fuel (wipedOf mode inv raster const)
              ((rasterTotalOf mode inv raster const : Nat) : Int)).sel⟩
         | _ =>
           if rasterTotalOf mode inv raster const
              = (((validIdx mode inv raster const).map
                ((restoreOf mode inv raster const
                  (fillLoop const u cmax fuel (wipedOf mode inv raster const)
                    ((rasterTotalOf mode inv raster const : Nat) : Int)).g).getD · 0)).sum)
           then ⟨.ok (restoreOf mode inv raster const
                  (fillLoop const u cmax fuel (wipedOf mode inv raster const)
                    ((rasterTotalOf mode inv raster const : Nat) : Int)).g,
                some (blockCapacityOf mode inv raster const cmax)),
              (fillLoop const u cmax fuel (wipedOf mode inv raster const)
                ((rasterTotalOf mode inv raster const : Nat) : Int)).sel⟩
           else ⟨.error .conservAssert,
              (fillLoop const u cmax fuel (wipedOf mode inv raster const)
                ((rasterTotalOf mode inv raster const : Nat) : Int)).sel⟩) := by
  unfold fraction_inlay
  dsimp only
  rw [if_neg hV, if_neg (not_not_intro hconst), if_neg hjam]
  cases mode <;> rfl

/-- Inversion for a successful `fraction_inlay` run with a numeric
capacity: the block had valid cells, the constraint assert passed, the
capacity is the exact integer capacity, and the result arose either from
the jammed branch or from the redistribution branch (with the conservation
assert passed and `invalid_in` not `none`). -/
theorem fraction_inlay_res_cases {raster const : List Nat} {u cmax : Nat}
    {mode : InvalidCellsIn} {inv fuel : Nat} {g : List Nat} {cap : Int}
    (hok : (fraction_inlay raster const u cmax mode inv fuel).res
      = .ok (g, some cap)) :
    validIdx mode inv raster const ≠ [] ∧
    (∀ i ∈ validIdx mode inv raster const, const.getD i 0 ≤ cmax) ∧
    cap = blockCapacityOf mode inv raster const cmax ∧
    (((validIdx mode inv raster const).length * cmax
        < constTotalOf mode inv raster const + rasterTotalOf mode inv raster const ∧
      g = jamOf mode inv raster const cmax) ∨
     (constTotalOf mode inv raster const + rasterTotalOf mode inv raster const
        ≤ (validIdx mode inv raster const).length * cmax ∧
      mode ≠ .none ∧
      (fillLoop const u cmax fuel (wipedOf mode inv raster const)
        ((rasterTotalOf mode inv raster const : Nat) : Int)).err = Option.none ∧
      g = restoreOf mode inv raster const
        (fillLoop const u cmax fuel (wipedOf mode inv raster const)
          ((rasterTotalOf mode inv raster const : Nat) : Int)).g ∧
      rasterTotalOf mode inv raster const
        = ((validIdx mode inv raster const).map (g.getD · 0)).sum)) := by
  by_cases hV : validIdx mode inv raster const = []
  · rw [fraction_inlay_ignored_eq hV] at hok
    simp at hok
  · by_cases hconst : ∀ i ∈ validIdx mode inv raster const, const.getD i 0 ≤ cmax
    · by_cases hjam : (validIdx mode inv raster const).length * cmax
        < constTotalOf mode inv raster const + rasterTotalOf mode inv raster const
      · rw [fraction_inlay_jam_eq hV hconst hjam] at hok
        dsimp only at hok
        rw [Except.ok.injEq, Prod.mk.injEq, Option.some.injEq] at hok
        exact ⟨hV, hconst, hok.2.symm, Or.inl ⟨hjam, hok.1.symm⟩⟩
      · rw [fraction_inlay_fill_eq hV hconst hjam] at hok
        cases herr : (fillLoop const u cmax fuel (wipedOf mode inv raster const)
            ((rasterTotalOf mode inv raster const : Nat) : Int)).err with
        | some e => rw [herr] at hok; simp at hok
        | none =>
          rw [herr] at hok
          cases mode with
          | none => simp at hok
          | raster =>
            dsimp only at hok
            split at hok
            · next hcons =>
              dsimp only at hok
              rw [Except.ok.injEq, Prod.mk.injEq, Option.some.injEq] at hok
              refine ⟨hV, hconst, hok.2.symm, Or.inr ⟨by omega, by simp, rfl,
                hok.1.symm, ?_⟩⟩
              rw [← hok.1]
              exact hcons
            · simp at hok
          | constraints =>
            dsimp only at hok
            split at hok
            · next hcons =>
              dsimp only at hok
              rw [Except.ok.injEq, Prod.mk.injEq, Option.some.injEq] at hok
              refine ⟨hV, hconst, hok.2.symm, Or.inr ⟨by omega, by simp, rfl,
                hok.1.symm, ?_⟩⟩
              rw [← hok.1]
              exact hcons
            · simp at hok
    · rw [fraction_inlay_constAssert_eq hV hconst] at hok
      simp at hok

/-- Claim C2: whenever the returned capacity is negative (jammed block),
every valid cell of the returned block equals `cell_max - constraint`
exactly (its constraint being at most `cell_max`), invalid cells hold
their original values, and the absolute value of the capacity equals the
exact excess `(valid raster total + valid constraint total) - cell_max *
valid cell count`. -/
theorem fraction_inlay_jam (raster const : List Nat) (u cmax : Nat)
    (mode : InvalidCellsIn) (inv fuel : Nat) (g : List Nat) (cap : Int)
    (hok : (fraction_inlay raster const u cmax mode inv fuel).res
      = .ok (g, some cap))
    (hneg : cap < 0) :
    (∀ i, i < raster.length →
      (validB mode inv raster const i = true →
        const.getD i 0 ≤ cmax ∧ g.getD i 0 = cmax - const.getD i 0) ∧
      (validB mode inv raster const i = false →
        g.getD i 0 = raster.getD i 0)) ∧
    -cap = ((rasterTotalOf mode inv raster const : Int)
        + (constTotalOf mode inv raster const : Int))
      - ((validIdx mode inv raster const).length : Int) * (cmax : Int) := by
  obtain ⟨hV, hconst, hcap, hbranch⟩ := fraction_inlay_res_cases hok
  rcases hbranch with ⟨hjam, hg⟩ | ⟨hle, _⟩
  · constructor
    · intro i hi
      constructor
      · intro hv
        have hiV : i ∈ validIdx mode inv raster const := mem_validIdx.2 ⟨hi, hv⟩
        refine ⟨hconst i hiV, ?_⟩
        rw [hg]
        unfold jamOf
        rw [getD_map_range hi, if_pos hv]
      · intro hv
        rw [hg]
        unfold jamOf
        rw [getD_map_range hi, if_neg (by simp [hv])]
    · rw [hcap]
      unfold blockCapacityOf
      push_cast
      omega
  · rw [hcap] at hneg
    unfold blockCapacityOf at hneg
    push_cast at hneg
    omega

/-- Claim C1 (amended): for every region the engine returns with a numeric
capacity — provided `invalid_value > cell_max` whenever the invalid policy
reads the raster — the identity
`initial_raster_sum = final_raster_sum - min 0 capacity` holds over the
region's cells; in particular, for capacity ≥ 0, the sum of raster values
over the region after redistribution equals the sum before the call. -/
theorem fraction_inlay_conservation (raster const : List Nat) (u cmax : Nat)
    (mode : InvalidCellsIn) (inv fuel : Nat) (g : List Nat) (cap : Int)
    (hlen : const.length = raster.length)
    (hmode : mode = .raster → cmax < inv)
    (hok : (fraction_inlay raster const u cmax mode inv fuel).res
      = .ok (g, some cap)) :
    (raster.sum : Int) = (g.sum : Int) - min 0 cap := by
  obtain ⟨hV, hconst, hcap, hbranch⟩ := fraction_inlay_res_cases hok
  have hrsplit := @sum_split_valid mode inv raster const (raster.getD · 0)
  have hrsum : raster.sum = rasterTotalOf mode inv raster const
      + ((invIdx mode inv raster const).map (raster.getD · 0)).sum := by
    unfold rasterTotalOf
    rw [sum_eq_sum_getD raster]
    omega
  rcases hbranch with ⟨hjam, hg⟩ | ⟨hle, hmodne, herr, hg, hcons⟩
  · -- jammed branch
    have hcaplt : cap < 0 := by
      rw [hcap]; unfold blockCapacityOf; push_cast; omega
    rw [min_eq_right (le_of_lt hcaplt)]
    have hglen : g.length = raster.length := by
      rw [hg]; unfold jamOf; exact length_map_range
    have hVeq : ((validIdx mode inv raster const).map (g.getD · 0)).sum
        = ((validIdx mode inv raster const).map
          (fun i => cmax - const.getD i 0)).sum := by
      apply sum_map_congr
      intro i hi
      obtain ⟨hilt, hval⟩ := mem_validIdx.1 hi
      rw [hg]; unfold jamOf
      rw [getD_map_range hilt, if_pos hval]
    have hIeq : ((invIdx mode inv raster const).map (g.getD · 0)).sum
        = ((invIdx mode inv raster const).map (raster.getD · 0)).sum := by
      apply sum_map_congr
      intro i hi
      obtain ⟨hilt, hval⟩ := mem_invIdx.1 hi
      rw [hg]; unfold jamOf
      rw [getD_map_range hilt, if_neg (by simp [hval])]
    have hgsplit := @sum_split_valid mode inv raster const (g.getD · 0)
    have hgsum : g.sum = ((validIdx mode inv raster const).map
        (fun i => cmax - const.getD i 0)).sum
        + ((invIdx mode inv raster const).map (raster.getD · 0)).sum := by
      rw [sum_eq_sum_getD g, hglen]
      omega
    have hsub : ((validIdx mode inv raster const).map
        (fun i => cmax - const.getD i 0)).sum
        + constTotalOf mode inv raster const
        = (validIdx mode inv raster const).length * cmax :=
      sum_sub_distrib (validIdx mode inv raster const) (const.getD · 0)
        cmax hconst
    rw [hcap]
    unfold blockCapacityOf
    omega
  · -- redistribution branch
    have hcapnn : (0 : Int) ≤ cap := by
      rw [hcap]; unfold blockCapacityOf; push_cast; omega
    rw [min_eq_left hcapnn]
    suffices hsame : raster.sum = g.sum by rw [hsame]; ring
    cases mode with
    | none => exact absurd rfl hmodne
    | constraints =>
      have hinv_eq : ∀ i ∈ invIdx .constraints inv raster const,
          g.getD i 0 = raster.getD i 0 := by
        intro i hi
        obtain ⟨hilt, hval⟩ := mem_invIdx.1 hi
        have hci : const.getD i 0 = inv := by
          simpa [validB] using hval
        rw [hg]
        simp only [restoreOf]
        rw [getD_map_range hilt, if_neg (not_not_intro hci)]
      have hglen : g.length = raster.length := by
        rw [hg]; simp only [restoreOf]; exact length_map_range
      have hIeq := sum_map_congr hinv_eq
      have hgsplit := @sum_split_valid .constraints inv raster const
        (g.getD · 0)
      rw [sum_eq_sum_getD g, hglen]
      omega
    | raster =>
      have hminv := hmode rfl
      obtain ⟨j1, hj1⟩ := List.exists_mem_of_ne_nil _ hV
      have hj1lt : j1 < raster.length := (mem_validIdx.1 hj1).1
      have hwlen : (wipedOf .raster inv raster const).length = raster.length :=
        length_map_range
      have hwne : wipedOf .raster inv raster const ≠ [] :=
        List.length_pos.mp (by rw [hwlen]; omega)
      have hclen : const.length = (wipedOf .raster inv raster const).length := by
        rw [hwlen, hlen]
      have hfsum := @fillLoop_sum const u cmax fuel
        (wipedOf .raster inv raster const)
        ((rasterTotalOf .raster inv raster const : Nat) : Int)
        hclen hwne herr
      have hfrlen : (fillLoop const u cmax fuel
          (wipedOf .raster inv raster const)
          ((rasterTotalOf .raster inv raster const : Nat) : Int)).g.length
          = raster.length := by
        rw [fillLoop_length, hwlen]
      have hvfr : ∀ k ∈ validIdx .raster inv raster const,
          (fillLoop const u cmax fuel (wipedOf .raster inv raster const)
            ((rasterTotalOf .raster inv raster const : Nat) : Int)).g.getD k 0
            ≤ cmax := by
        intro k hk
        obtain ⟨hklt, hkval⟩ := mem_validIdx.1 hk
        have hb := fillLoop_bounded herr k
        have hwk : (wipedOf .raster inv raster const).getD k 0 = 0 := by
          unfold wipedOf; rw [getD_map_range hklt, if_pos hkval]
        rw [hwk] at hb
        simpa using hb
      have hgval : ∀ k ∈ validIdx .raster inv raster const,
          g.getD k 0 = (fillLoop const u cmax fuel
            (wipedOf .raster inv raster const)
            ((rasterTotalOf .raster inv raster const : Nat) : Int)).g.getD k 0 := by
        intro k hk
        obtain ⟨hklt, hkval⟩ := mem_validIdx.1 hk
        rw [hg]
        simp only [restoreOf]
        rw [getD_map_range hklt, if_pos (by have := hvfr k hk; omega)]
      have hVg := sum_map_congr hgval
      have hfrsplit := @sum_split_valid .raster inv raster const
        ((fillLoop const u cmax fuel (wipedOf .raster inv raster const)
          ((rasterTotalOf .raster inv raster const : Nat) : Int)).g.getD · 0)
      have hwsplit := @sum_split_valid .raster inv raster const
        ((wipedOf .raster inv raster const).getD · 0)
      have hwV : ((validIdx .raster inv raster const).map
          ((wipedOf .raster inv raster const).getD · 0)).sum = 0 := by
        have hz : ∀ k ∈ validIdx .raster inv raster const,
            (wipedOf .raster inv raster const).getD k 0 = (fun _ => 0) k := by
          intro k hk
          obtain ⟨hklt, hkval⟩ := mem_validIdx.1 hk
          unfold wipedOf; rw [getD_map_range hklt, if_pos hkval]
        rw [sum_map_congr hz]
        simp
      have hfr_total := sum_eq_sum_getD (fillLoop const u cmax fuel
        (wipedOf .raster inv raster const)
        ((rasterTotalOf .raster inv raster const : Nat) : Int)).g
      rw [hfrlen] at hfr_total
      have hw_total := sum_eq_sum_getD (wipedOf .raster inv raster const)
      rw [hwlen] at hw_total
      have hinv_sum : ((invIdx .raster inv raster const).map
          ((fillLoop const u cmax fuel (wipedOf .raster inv raster const)
            ((rasterTotalOf .raster inv raster const : Nat) : Int)).g.getD · 0)).sum
          = ((invIdx .raster inv raster const).map
            ((wipedOf .raster inv raster const).getD · 0)).sum := by
        omega
      have hpw := pointwise_eq_of_sum_le
        (L := invIdx .raster inv raster const)
        (f := ((wipedOf .raster inv raster const).getD · 0))
        (h := ((fillLoop const u cmax fuel (wipedOf .raster inv raster const)
          ((rasterTotalOf .raster inv raster const : Nat) : Int)).g.getD · 0))
        (fun k _ => fillLoop_monotone)
        (le_of_eq hinv_sum)
      have hinv_eq : ∀ i ∈ invIdx .raster inv raster const,
          g.getD i 0 = raster.getD i 0 := by
        intro i hi
        obtain ⟨hilt, hval⟩ := mem_invIdx.1 hi
        have hwi : (wipedOf .raster inv raster const).getD i 0 = inv := by
          unfold wipedOf; rw [getD_map_range hilt, if_neg (by simp [hval])]
        have hfi : (fillLoop const u cmax fuel
            (wipedOf .raster inv raster const)
            ((rasterTotalOf .raster inv raster const : Nat) : Int)).g.getD i 0
            = inv := by
          have h1 : (fillLoop const u cmax fuel
              (wipedOf .raster inv raster const)
              ((rasterTotalOf .raster inv raster const : Nat) : Int)).g.getD i 0
              = (wipedOf .raster inv raster const).getD i 0 := hpw i hi
          rw [hwi] at h1
          exact h1
        rw [hg]
        simp only [restoreOf]
        rw [getD_map_range hilt, if_neg (not_not_intro hfi)]
      have hglen : g.length = raster.length := by
        rw [hg]; simp only [restoreOf]; exact length_map_range
      have hIeq := sum_map_congr hinv_eq
      have hgsplit := @sum_split_valid .raster inv raster const
        (g.getD · 0)
      rw [sum_eq_sum_getD g, hglen]
      omega

/-- Witness for C1 (amended): a multi-cell block under the constraints
policy returns capacity 197 and the conservation identity holds. -/
theorem fraction_inlay_conservation_witness :
    ((([0, 0] : List Nat).length = ([1, 2] : List Nat).length ∧
      (InvalidCellsIn.constraints = .raster → (100 : Nat) < 254) ∧
      (fraction_inlay [1, 2] [0, 0] 1 100 .constraints 254 20).res
        = .ok ([2, 1], some 197)) ∧
     (([1, 2] : List Nat).sum : Int)
       = (([2, 1] : List Nat).sum : Int) - min 0 197) :=
  ⟨⟨rfl, by decide, rfl⟩,
   fraction_inlay_conservation [1, 2] [0, 0] 1 100 .constraints 254 20
     [2, 1] 197 rfl (by decide) rfl⟩

theorem wiped_getD_valid {mode : InvalidCellsIn} {inv : Nat}
    {raster const : List Nat} {k : Nat}
    (hk : k ∈ validIdx mode inv raster const) :
    (wipedOf mode inv raster const).getD k 0 = 0 := by
  obtain ⟨hklt, hkval⟩ := mem_validIdx.1 hk
  unfold wipedOf
  rw [getD_map_range hklt, if_pos hkval]

theorem wiped_getD_invalid {mode : InvalidCellsIn} {inv : Nat}
    {raster const : List Nat} {k : Nat} (hklt : k < raster.length)
    (hkf : validB mode inv raster const k = false) :
    (wipedOf mode inv raster const).getD k 0 = inv := by
  unfold wipedOf
  rw [getD_map_range hklt, if_neg (by simp [hkf])]

theorem wiped_load_sum {mode : InvalidCellsIn} {inv : Nat}
    {raster const : List Nat} :
    ((validIdx mode inv raster const).map
      (fun j => (wipedOf mode inv raster const).getD j 0 + const.getD j 0)).sum
    = constTotalOf mode inv raster const := by
  rw [show (fun j => (wipedOf mode inv raster const).getD j 0 + const.getD j 0)
    = (fun j => ((wipedOf mode inv raster const).getD · 0) j
      + (const.getD · 0) j) from rfl, sum_map_add]
  have hz : ∀ k ∈ validIdx mode inv raster const,
      (wipedOf mode inv raster const).getD k 0 = (fun _ => 0) k :=
    fun k hk => wiped_getD_valid hk
  rw [sum_map_congr hz]
  simp [constTotalOf]

/-- Instantiation of the fill-loop invariant at the start state of the
redistribution branch of `fraction_inlay` with `cell_unit = 1`. -/
theorem fillLoop_one_start {raster const : List Nat} {cmax : Nat}
    {mode : InvalidCellsIn} {inv fuel : Nat}
    (hlen : const.length = raster.length)
    (hV : validIdx mode inv raster const ≠ [])
    (hcap : 0 ≤ blockCapacityOf mode inv raster const cmax) :
    ((fillLoop const 1 cmax fuel (wipedOf mode inv raster const)
        ((rasterTotalOf mode inv raster const : Nat) : Int)).err
      ≠ some .fillAssert) ∧
    (((rasterTotalOf mode inv raster const : Nat) : Int) ≤ (fuel : Int) →
      (fillLoop const 1 cmax fuel (wipedOf mode inv raster const)
        ((rasterTotalOf mode inv raster const : Nat) : Int)).err
        = Option.none) ∧
    ((fillLoop const 1 cmax fuel (wipedOf mode inv raster const)
        ((rasterTotalOf mode inv raster const : Nat) : Int)).err
        = Option.none →
      ∀ j, j < (wipedOf mode inv raster const).length →
        (fillLoop const 1 cmax fuel (wipedOf mode inv raster const)
          ((rasterTotalOf mode inv raster const : Nat) : Int)).g.getD j 0
          + const.getD j 0 ≤ cmax ∨
        (fillLoop const 1 cmax fuel (wipedOf mode inv raster const)
          ((rasterTotalOf mode inv raster const : Nat) : Int)).g.getD j 0
          = (wipedOf mode inv raster const).getD j 0) := by
  have hwlen : (wipedOf mode inv raster const).length = raster.length :=
    length_map_range
  refine fillLoop_one (validB mode inv raster const)
    (validIdx mode inv raster const) validIdx_nodup
    (wipedOf mode inv raster const)
    (by rw [hwlen, hlen]) (fun j => by rw [hwlen]; exact mem_validIdx) hV
    (by positivity) ?_ (fun j _ => Or.inr rfl)
  rw [wiped_load_sum]
  unfold blockCapacityOf at hcap
  push_cast at hcap ⊢
  omega

/-- Claim C4 (amended): with `cell_unit = 1` and — when the invalid policy
reads the raster — `invalid_value > cell_max`, for every region with at
least one valid cell and non-negative block capacity the greedy fill never
pushes a cell past the per-cell ceiling (the in-loop assertion never
fires), and whenever the call returns, no valid cell's raster + constraint
value exceeds `cell_max`. -/
theorem fraction_inlay_ceiling (raster const : List Nat) (cmax : Nat)
    (mode : InvalidCellsIn) (inv fuel : Nat)
    (hlen : const.length = raster.length)
    (hmode : mode = .raster → cmax < inv)
    (hV : validIdx mode inv raster const ≠ [])
    (hcap : 0 ≤ blockCapacityOf mode inv raster const cmax) :
    (fraction_inlay raster const 1 cmax mode inv fuel).res
      ≠ .error .fillAssert ∧
    (∀ g cap,
      (fraction_inlay raster const 1 cmax mode inv fuel).res = .ok (g, cap) →
      ∀ i, i < raster.length → validB mode inv raster const i = true →
        g.getD i 0 + const.getD i 0 ≤ cmax) := by
  have hwlen : (wipedOf mode inv raster const).length = raster.length :=
    length_map_range
  by_cases hconst : ∀ i ∈ validIdx mode inv raster const,
      const.getD i 0 ≤ cmax
  · have hjam : ¬ ((validIdx mode inv raster const).length * cmax
        < constTotalOf mode inv raster const
          + rasterTotalOf mode inv raster const) := by
      unfold blockCapacityOf at hcap
      push_cast at hcap
      omega
    have hone := @fillLoop_one_start raster const cmax mode inv fuel
      hlen hV hcap
    rw [fraction_inlay_fill_eq hV hconst hjam]
    cases herr : (fillLoop const 1 cmax fuel (wipedOf mode inv raster const)
        ((rasterTotalOf mode inv raster const : Nat) : Int)).err with
    | some e =>
      constructor
      · dsimp only
        intro hres
        rw [Except.error.injEq] at hres
        exact hone.1 (by rw [herr, hres])
      · dsimp only
        intro g cap hres
        simp at hres
    | none =>
      have hbound := hone.2.2 herr
      constructor
      · cases mode with
        | none => simp
        | raster =>
          dsimp only
          split <;> simp
        | constraints =>
          dsimp only
          split <;> simp
      · intro g cap hres i hi hvalid
        have hfb : (fillLoop const 1 cmax fuel (wipedOf mode inv raster const)
            ((rasterTotalOf mode inv raster const : Nat) : Int)).g.getD i 0
              + const.getD i 0 ≤ cmax := by
          rcases hbound i (by omega) with hle | heq
          · exact hle
          · rw [heq, wiped_getD_valid (mem_validIdx.2 ⟨hi, hvalid⟩)]
            have := hconst i (mem_validIdx.2 ⟨hi, hvalid⟩)
            omega
        cases mode with
        | none => simp at hres
        | raster =>
          dsimp only at hres
          split at hres
          · dsimp only at hres
            rw [Except.ok.injEq, Prod.mk.injEq] at hres
            rw [← hres.1]
            simp only [restoreOf]
            have hfr_ne : (fillLoop const 1 cmax fuel
                (wipedOf .raster inv raster const)
                ((rasterTotalOf .raster inv raster const : Nat) : Int)).g.getD i 0
                ≠ inv := by
              have := hmode rfl
              omega
            rw [getD_map_range hi, if_pos hfr_ne]
            exact hfb
          · simp at hres
        | constraints =>
          dsimp only at hres
          split at hres
          · dsimp only at hres
            rw [Except.ok.injEq, Prod.mk.injEq] at hres
            rw [← hres.1]
            simp only [restoreOf]
            have hci : const.getD i 0 ≠ inv := by
              have hvb : (const.getD i 0 != inv) = true := hvalid
              simpa using hvb
            rw [getD_map_range hi, if_pos hci]
            exact hfb
          · simp at hres
  · rw [fraction_inlay_constAssert_eq hV hconst]
    exact ⟨by simp, fun g cap hres => by simp at hres⟩

/-- Witness for C4 (amended) at block [50, 50] against constraints
[10, 10] with `cell_max = 100` under the constraints policy. -/
theorem fraction_inlay_ceiling_witness :
    ((([10, 10] : List Nat).length = ([50, 50] : List Nat).length ∧
      (InvalidCellsIn.constraints = .raster → (100 : Nat) < 254) ∧
      validIdx .constraints 254 [50, 50] [10, 10] ≠ [] ∧
      0 ≤ blockCapacityOf .constraints 254 [50, 50] [10, 10] 100) ∧
     ((fraction_inlay [50, 50] [10, 10] 1 100 .constraints 254 200).res
        ≠ .error .fillAssert ∧
      (∀ g cap,
        (fraction_inlay [50, 50] [10, 10] 1 100 .constraints 254 200).res
          = .ok (g, cap) →
        ∀ i, i < ([50, 50] : List Nat).length →
          validB .constraints 254 [50, 50] [10, 10] i = true →
          g.getD i 0 + ([10, 10] : List Nat).getD i 0 ≤ 100))) :=
  ⟨⟨rfl, by decide, by decide, by decide⟩,
   fraction_inlay_ceiling [50, 50] [10, 10] 100 .constraints 254 200
     rfl (by decide) (by decide) (by decide)⟩

/-- Claim C10 (amended): with `invalid_in = none`, `cell_unit = 1`, at
least one cell, every constraint cell at most `cell_max`, non-negative
block capacity, and enough fuel for the loop, the call ends in the
unhandled `NameError` from the final conservation check, which reads the
never-assigned name `invalid_mask`. -/
theorem fraction_inlay_nameerror (raster const : List Nat)
    (cmax inv fuel : Nat)
    (hlen : const.length = raster.length)
    (hV : validIdx .none inv raster const ≠ [])
    (hconst : ∀ i ∈ validIdx .none inv raster const, const.getD i 0 ≤ cmax)
    (hcap : 0 ≤ blockCapacityOf .none inv raster const cmax)
    (hfuel : rasterTotalOf .none inv raster const ≤ fuel) :
    (fraction_inlay raster const 1 cmax .none inv fuel).res
      = .error .nameError := by
  have hjam : ¬ ((validIdx .none inv raster const).length * cmax
      < constTotalOf .none inv raster const
        + rasterTotalOf .none inv raster const) := by
    unfold blockCapacityOf at hcap
    push_cast at hcap
    omega
  have hone := @fillLoop_one_start raster const cmax .none inv fuel
    hlen hV hcap
  have herr := hone.2.1 (by exact_mod_cast hfuel)
  rw [fraction_inlay_fill_eq hV hconst hjam, herr]

/-- Witness for C10 (amended) at block [3, 0] with zero constraints. -/
theorem fraction_inlay_nameerror_witness :
    ((([0, 0] : List Nat).length = ([3, 0] : List Nat).length ∧
      validIdx .none 254 [3, 0] [0, 0] ≠ [] ∧
      (∀ i ∈ validIdx .none 254 [3, 0] [0, 0],
        ([0, 0] : List Nat).getD i 0 ≤ 100) ∧
      0 ≤ blockCapacityOf .none 254 [3, 0] [0, 0] 100 ∧
      rasterTotalOf .none 254 [3, 0] [0, 0] ≤ 10) ∧
     (fraction_inlay [3, 0] [0, 0] 1 100 .none 254 10).res
       = .error .nameError) :=
  ⟨⟨rfl, by decide, by decide, by decide, by decide⟩,
   fraction_inlay_nameerror [3, 0] [0, 0] 100 254 10 rfl (by decide)
     (by decide) (by decide) (by decide)⟩

/-- Claim C8 (amended): with an invalid policy enabled, an invalid marker
larger than `cell_max`, and `cell_unit` dividing the valid raster total,
no invalid cell is ever selected by the greedy least-loaded fill, and
whenever the call returns, every invalid cell holds exactly its original
raster value — in both the jammed and the redistribution branch. -/
theorem fraction_inlay_invalid_untouched (raster const : List Nat)
    (u cmax : Nat) (mode : InvalidCellsIn) (inv fuel : Nat)
    (hlen : const.length = raster.length)
    (hmodne : mode ≠ .none)
    (hinv : cmax < inv)
    (hdvd : u ∣ rasterTotalOf mode inv raster const) :
    (∀ j ∈ (fraction_inlay raster const u cmax mode inv fuel).sel,
      validB mode inv raster const j = true) ∧
    (∀ g cap,
      (fraction_inlay raster const u cmax mode inv fuel).res = .ok (g, cap) →
      ∀ i, i < raster.length → validB mode inv raster const i = false →
        g.getD i 0 = raster.getD i 0) := by
  by_cases hV : validIdx mode inv raster const = []
  · rw [fraction_inlay_ignored_eq hV]
    constructor
    · intro j hj
      simp at hj
    · intro g cap hres i hi hif
      dsimp only at hres
      rw [Except.ok.injEq, Prod.mk.injEq] at hres
      rw [← hres.1]
  · by_cases hconst : ∀ i ∈ validIdx mode inv raster const,
        const.getD i 0 ≤ cmax
    · by_cases hjam : (validIdx mode inv raster const).length * cmax
        < constTotalOf mode inv raster const + rasterTotalOf mode inv raster const
      · rw [fraction_inlay_jam_eq hV hconst hjam]
        constructor
        · intro j hj
          simp at hj
        · intro g cap hres i hi hif
          dsimp only at hres
          rw [Except.ok.injEq, Prod.mk.injEq] at hres
          rw [← hres.1]
          unfold jamOf
          rw [getD_map_range hi, if_neg (by simp [hif])]
      · -- redistribution branch
        have hwlen : (wipedOf mode inv raster const).length = raster.length :=
          length_map_range
        have hselv : ∀ j ∈ (fillLoop const u cmax fuel
            (wipedOf mode inv raster const)
            ((rasterTotalOf mode inv raster const : Nat) : Int)).sel,
            validB mode inv raster const j = true := by
          refine fillLoop_sel_valid (validB mode inv raster const)
            (validIdx mode inv raster const) validIdx_nodup
            (by rw [hwlen, hlen]) (fun j => by rw [hwlen]; exact mem_validIdx)
            hV (by positivity) (Int.natCast_dvd_natCast.2 hdvd) ?_ ?_
          · rw [wiped_load_sum]
            omega
          · intro j hjlt hjf
            rw [hwlen] at hjlt
            rw [wiped_getD_invalid hjlt hjf]
            omega
        rw [fraction_inlay_fill_eq hV hconst hjam]
        constructor
        · intro j hj
          cases herr : (fillLoop const u cmax fuel
              (wipedOf mode inv raster const)
              ((rasterTotalOf mode inv raster const : Nat) : Int)).err with
          | some e =>
            rw [herr] at hj
            dsimp only at hj
            exact hselv j hj
          | none =>
            rw [herr] at hj
            cases mode with
            | none => exact absurd rfl hmodne
            | raster =>
              dsimp only at hj
              split at hj <;> exact hselv j hj
            | constraints =>
              dsimp only at hj
              split at hj <;> exact hselv j hj
        · cases herr : (fillLoop const u cmax fuel
              (wipedOf mode inv raster const)
              ((rasterTotalOf mode inv raster const : Nat) : Int)).err with
          | some e =>
            intro g cap hres
            simp at hres
          | none =>
            cases mode with
            | none => exact absurd rfl hmodne
            | raster =>
              dsimp only
              by_cases hcons : rasterTotalOf .raster inv raster const
                  = (((validIdx .raster inv raster const).map
                    ((restoreOf .raster inv raster const
                      (fillLoop const u cmax fuel
                        (wipedOf .raster inv raster const)
                        ((rasterTotalOf .raster inv raster const : Nat) : Int)).g).getD · 0)).sum)
              · rw [if_pos hcons]
                intro g cap hres i hi hif
                dsimp only at hres
                rw [Except.ok.injEq, Prod.mk.injEq] at hres
                rw [← hres.1]
                have hnotsel : i ∉ (fillLoop const u cmax fuel
                    (wipedOf .raster inv raster const)
                    ((rasterTotalOf .raster inv raster const : Nat) : Int)).sel :=
                  fun hmem => absurd (hselv i hmem) (by simp [hif])
                have hfi : (fillLoop const u cmax fuel
                    (wipedOf .raster inv raster const)
                    ((rasterTotalOf .raster inv raster const : Nat) : Int)).g.getD i 0
                    = inv := by
                  rw [fillLoop_not_sel hnotsel]
                  exact wiped_getD_invalid hi hif
                simp only [restoreOf]
                rw [getD_map_range hi, if_neg (not_not_intro hfi)]
              · rw [if_neg hcons]
                intro g cap hres
                simp at hres
            | constraints =>
              dsimp only
              by_cases hcons : rasterTotalOf .constraints inv raster const
                  = (((validIdx .constraints inv raster const).map
                    ((restoreOf .constraints inv raster const
                      (fillLoop const u cmax fuel
                        (wipedOf .constraints inv raster const)
                        ((rasterTotalOf .constraints inv raster const : Nat) : Int)).g).getD · 0)).sum)
              · rw [if_pos hcons]
                intro g cap hres i hi hif
                dsimp only at hres
                rw [Except.ok.injEq, Prod.mk.injEq] at hres
                rw [← hres.1]
                have hci : const.getD i 0 = inv := by
                  simpa [validB] using hif
                simp only [restoreOf]
                rw [getD_map_range hi, if_neg (not_not_intro hci)]
              · rw [if_neg hcons]
                intro g cap hres
                simp at hres
    · rw [fraction_inlay_constAssert_eq hV hconst]
      constructor
      · intro j hj
        simp at hj
      · intro g cap hres
        simp at hres

/-- Witness for C8 (amended): a block with one invalid cell under the
constraints policy, marker 254 > cell_max = 100. -/
theorem fraction_inlay_invalid_untouched_witness :
    ((([254, 0] : List Nat).length = ([5, 5] : List Nat).length ∧
      InvalidCellsIn.constraints ≠ InvalidCellsIn.none ∧ (100 : Nat) < 254 ∧
      1 ∣ rasterTotalOf .constraints 254 [5, 5] [254, 0]) ∧
     ((∀ j ∈ (fraction_inlay [5, 5] [254, 0] 1 100 .constraints 254 20).sel,
        validB .constraints 254 [5, 5] [254, 0] j = true) ∧
      (∀ g cap,
        (fraction_inlay [5, 5] [254, 0] 1 100 .constraints 254 20).res
          = .ok (g, cap) →
        ∀ i, i < ([5, 5] : List Nat).length →
          validB .constraints 254 [5, 5] [254, 0] i = false →
          g.getD i 0 = ([5, 5] : List Nat).getD i 0))) :=
  ⟨⟨rfl, by decide, by decide, by decide⟩,
   fraction_inlay_invalid_untouched [5, 5] [254, 0] 1 100 .constraints 254 20
     rfl (by decide) (by decide) (by decide)⟩

/-! Lemmas about the batch orchestrator. -/

theorem lookup_append_single (caps : List (Nat × Int)) (p : Nat × Int)
    (q : Nat) (hq : q ≠ p.1) :
    (caps ++ [p]).lookup q = caps.lookup q := by
  induction caps with
  | nil =>
    obtain ⟨k0, v0⟩ := p
    dsimp only at hq
    simp only [List.nil_append, List.lookup]
    rw [show (q == k0) = false from beq_eq_false_iff_ne.mpr hq]
  | cons e caps ih =>
    obtain ⟨k0, v0⟩ := e
    simp only [List.cons_append, List.lookup]
    by_cases he : q = k0
    · rw [show (q == k0) = true from beq_iff_eq.mpr he]
    · rw [show (q == k0) = false from beq_eq_false_iff_ne.mpr he]
      exact ih

theorem imprintGo_cons_eq {u cmax : Nat} {mode : InvalidCellsIn}
    {inv fuel k : Nat} {r cst : List Nat}
    {rest : List (List Nat × List Nat)} {rep : Report}
    {caps : List (Nat × Int)} :
    imprintGo u cmax mode inv fuel k ((r, cst) :: rest) rep caps =
      match (fraction_inlay r cst u cmax mode inv fuel).res with
      | .error e => .error e
      | .ok (_, some c) =>
        if c < 0 then
          imprintGo u cmax mode inv fuel (k + 1) rest
            { rep with jammed := rep.jammed ++ [k] } (caps ++ [(k, c)])
        else
          imprintGo u cmax mode inv fuel (k + 1) rest
            { rep with ok := rep.ok ++ [k] } (caps ++ [(k, c)])
      | .ok (_, Option.none) =>
        imprintGo u cmax mode inv fuel (k + 1) rest
          { rep with ignored := rep.ignored ++ [k] } caps := rfl

theorem imprintGo_mono {u cmax : Nat} {mode : InvalidCellsIn}
    {inv fuel : Nat} :
    ∀ (regs : List (List Nat × List Nat)) (k : Nat) (rep : Report)
      (caps : List (Nat × Int)) {rep' : Report} {caps' : List (Nat × Int)},
      imprintGo u cmax mode inv fuel k regs rep caps = .ok (rep', caps') →
      (∀ x ∈ rep.ok, x ∈ rep'.ok) ∧ (∀ x ∈ rep.jammed, x ∈ rep'.jammed) ∧
      (∀ x ∈ rep.ignored, x ∈ rep'.ignored) ∧
      (∀ x ∈ rep.failed, x ∈ rep'.failed) := by
  intro regs
  induction regs with
  | nil =>
    intro k rep caps rep' caps' hok
    rw [show imprintGo u cmax mode inv fuel k [] rep caps
      = .ok (rep, caps) from rfl] at hok
    rw [Except.ok.injEq, Prod.mk.injEq] at hok
    rw [← hok.1]
    exact ⟨fun x h => h, fun x h => h, fun x h => h, fun x h => h⟩
  | cons rc rest ih =>
    intro k rep caps rep' caps' hok
    obtain ⟨r0, c0⟩ := rc
    rw [imprintGo_cons_eq] at hok
    cases hfi : (fraction_inlay r0 c0 u cmax mode inv fuel).res with
    | error e => rw [hfi] at hok; simp at hok
    | ok val =>
      obtain ⟨gg, capv⟩ := val
      cases capv with
      | none =>
        rw [hfi] at hok
        dsimp only at hok
        have := ih (k + 1) _ _ hok
        refine ⟨this.1, this.2.1, fun x hx => this.2.2.1 x ?_, this.2.2.2⟩
        exact List.mem_append_left _ hx
      | some cv =>
        rw [hfi] at hok
        dsimp only at hok
        split at hok
        · have := ih (k + 1) _ _ hok
          exact ⟨this.1, fun x hx => this.2.1 x (List.mem_append_left _ hx),
            this.2.2.1, this.2.2.2⟩
        · have := ih (k + 1) _ _ hok
          exact ⟨fun x hx => this.1 x (List.mem_append_left _ hx), this.2.1,
            this.2.2.1, this.2.2.2⟩

theorem imprintGo_bound {u cmax : Nat} {mode : InvalidCellsIn}
    {inv fuel : Nat} :
    ∀ (regs : List (List Nat × List Nat)) (k : Nat) (rep : Report)
      (caps : List (Nat × Int)) {rep' : Report} {caps' : List (Nat × Int)},
      imprintGo u cmax mode inv fuel k regs rep caps = .ok (rep', caps') →
      (∀ x, x ∈ rep'.ok → x ∈ rep.ok ∨ k ≤ x) ∧
      (∀ x, x ∈ rep'.jammed → x ∈ rep.jammed ∨ k ≤ x) ∧
      (∀ x, x ∈ rep'.ignored → x ∈ rep.ignored ∨ k ≤ x) ∧
      (∀ x, x ∈ rep'.failed → x ∈ rep.failed ∨ k ≤ x) ∧
      (∀ q, q < k → caps'.lookup q = caps.lookup q) := by
  intro regs
  induction regs with
  | nil =>
    intro k rep caps rep' caps' hok
    rw [show imprintGo u cmax mode inv fuel k [] rep caps
      = .ok (rep, caps) from rfl] at hok
    rw [Except.ok.injEq, Prod.mk.injEq] at hok
    rw [← hok.1, ← hok.2]
    exact ⟨fun x h => Or.inl h, fun x h => Or.inl h, fun x h => Or.inl h,
      fun x h => Or.inl h, fun q _ => rfl⟩
  | cons rc rest ih =>
    intro k rep caps rep' caps' hok
    obtain ⟨r0, c0⟩ := rc
    rw [imprintGo_cons_eq] at hok
    cases hfi : (fraction_inlay r0 c0 u cmax mode inv fuel).res with
    | error e => rw [hfi] at hok; simp at hok
    | ok val =>
      obtain ⟨gg, capv⟩ := val
      cases capv with
      | none =>
        rw [hfi] at hok
        dsimp only at hok
        have hrec := ih (k + 1) _ _ hok
        refine ⟨fun x hx => ?_, fun x hx => ?_, fun x hx => ?_,
          fun x hx => ?_, fun q hq => ?_⟩
        · rcases hrec.1 x hx with h | h
          · exact Or.inl h
          · exact Or.inr (by omega)
        · rcases hrec.2.1 x hx with h | h
          · exact Or.inl h
          · exact Or.inr (by omega)
        · rcases hrec.2.2.1 x hx with h | h
          · rcases List.mem_append.1 h with h2 | h2
            · exact Or.inl h2
            · simp only [List.mem_singleton] at h2
              exact Or.inr (by omega)
          · exact Or.inr (by omega)
        · rcases hrec.2.2.2.1 x hx with h | h
          · exact Or.inl h
          · exact Or.inr (by omega)
        · exact hrec.2.2.2.2 q (by omega)
      | some cv =>
        rw [hfi] at hok
        dsimp only at hok
        split at hok
        all_goals
          have hrec := ih (k + 1) _ _ hok
          refine ⟨fun x hx => ?_, fun x hx => ?_, fun x hx => ?_,
            fun x hx => ?_, fun q hq => ?_⟩
        · rcases hrec.1 x hx with h | h
          · exact Or.inl h
          · exact Or.inr (by omega)
        · rcases hrec.2.1 x hx with h | h
          · rcases List.mem_append.1 h with h2 | h2
            · exact Or.inl h2
            · simp only [List.mem_singleton] at h2
              exact Or.inr (by omega)
          · exact Or.inr (by omega)
        · rcases hrec.2.2.1 x hx with h | h
          · exact Or.inl h
          · exact Or.inr (by omega)
        · rcases hrec.2.2.2.1 x hx with h | h
          · exact Or.inl h
          · exact Or.inr (by omega)
        · rw [hrec.2.2.2.2 q (by omega),
            lookup_append_single caps (k, cv) q (by dsimp only; omega)]
        · rcases hrec.1 x hx with h | h
          · rcases List.mem_append.1 h with h2 | h2
            · exact Or.inl h2
            · simp only [List.mem_singleton] at h2
              exact Or.inr (by omega)
          · exact Or.inr (by omega)
        · rcases hrec.2.1 x hx with h | h
          · exact Or.inl h
          · exact Or.inr (by omega)
        · rcases hrec.2.2.1 x hx with h | h
          · exact Or.inl h
          · exact Or.inr (by omega)
        · rcases hrec.2.2.2.1 x hx with h | h
          · exact Or.inl h
          · exact Or.inr (by omega)
        · rw [hrec.2.2.2.2 q (by omega),
            lookup_append_single caps (k, cv) q (by dsimp only; omega)]

theorem imprintGo_ignored_spec {u cmax : Nat} {mode : InvalidCellsIn}
    {inv fuel : Nat} :
    ∀ (regs : List (List Nat × List Nat)) (k : Nat) (rep : Report)
      (caps : List (Nat × Int)) (rep' : Report) (caps' : List (Nat × Int))
      (i : Nat) (r c : List Nat),
      imprintGo u cmax mode inv fuel k regs rep caps = .ok (rep', caps') →
      regs[i]? = some (r, c) →
      validIdx mode inv r c = [] →
      (k + i) ∈ rep'.ignored ∧
      ((k + i) ∈ rep'.ok → (k + i) ∈ rep.ok) ∧
      ((k + i) ∈ rep'.jammed → (k + i) ∈ rep.jammed) ∧
      ((k + i) ∈ rep'.failed → (k + i) ∈ rep.failed) ∧
      caps'.lookup (k + i) = caps.lookup (k + i) := by
  intro regs
  induction regs with
  | nil =>
    intro k rep caps rep' caps' i r c _ hreg _
    simp at hreg
  | cons rc rest ih =>
    intro k rep caps rep' caps' i r c hok hreg hVnil
    obtain ⟨r0, c0⟩ := rc
    rw [imprintGo_cons_eq] at hok
    cases i with
    | zero =>
      rw [List.getElem?_cons_zero, Option.some.injEq, Prod.mk.injEq] at hreg
      obtain ⟨rfl, rfl⟩ := hreg
      rw [show (fraction_inlay r0 c0 u cmax mode inv fuel).res
        = .ok (r0, Option.none) from by
          rw [fraction_inlay_ignored_eq hVnil]] at hok
      dsimp only at hok
      have hmono := imprintGo_mono rest (k + 1) _ _ hok
      have hbnd := imprintGo_bound rest (k + 1) _ _ hok
      simp only [Nat.add_zero]
      refine ⟨?_, fun hx => ?_, fun hx => ?_, fun hx => ?_, ?_⟩
      · exact hmono.2.2.1 k
          (List.mem_append_right _ (List.mem_singleton.mpr rfl))
      · rcases hbnd.1 k hx with h | h
        · exact h
        · omega
      · rcases hbnd.2.1 k hx with h | h
        · exact h
        · omega
      · rcases hbnd.2.2.2.1 k hx with h | h
        · exact h
        · omega
      · exact hbnd.2.2.2.2 k (by omega)
    | succ j =>
      rw [List.getElem?_cons_succ] at hreg
      have harith : k + 1 + j = k + (j + 1) := by omega
      cases hfi : (fraction_inlay r0 c0 u cmax mode inv fuel).res with
      | error e => rw [hfi] at hok; simp at hok
      | ok val =>
        obtain ⟨gg, capv⟩ := val
        cases capv with
        | none =>
          rw [hfi] at hok
          dsimp only at hok
          have hrec := ih (k + 1) _ _ _ _ j r c hok hreg hVnil
          rw [harith] at hrec
          exact ⟨hrec.1, hrec.2.1, hrec.2.2.1, hrec.2.2.2.1, hrec.2.2.2.2⟩
        | some cv =>
          rw [hfi] at hok
          dsimp only at hok
          split at hok
          · have hrec := ih (k + 1) _ _ _ _ j r c hok hreg hVnil
            rw [harith] at hrec
            refine ⟨hrec.1, hrec.2.1, fun hx => ?_, hrec.2.2.2.1, ?_⟩
            · rcases List.mem_append.1 (hrec.2.2.1 hx) with h | h
              · exact h
              · simp only [List.mem_singleton] at h; omega
            · rw [hrec.2.2.2.2,
                lookup_append_single caps (k, cv) _ (by dsimp only; omega)]
          · have hrec := ih (k + 1) _ _ _ _ j r c hok hreg hVnil
            rw [harith] at hrec
            refine ⟨hrec.1, fun hx => ?_, hrec.2.2.1, hrec.2.2.2.1, ?_⟩
            · rcases List.mem_append.1 (hrec.2.1 hx) with h | h
              · exact h
              · simp only [List.mem_singleton] at h; omega
            · rw [hrec.2.2.2.2,
                lookup_append_single caps (k, cv) _ (by dsimp only; omega)]

/-- C7: for every region with zero valid cells (every cell of the selected
invalid-source grid equals the invalid value, so the valid mask is empty),
`fraction_inlay` returns the raster block byte-for-byte unchanged with
capacity None (distribute.py lines 117-121), and `imprint_constraints`
classifies that region's index as ignored: it appears in the report's
'ignored' list, in no other report list, and gets no capacity entry
(distribute.py lines 293-300). -/
theorem imprint_ignored_region
    (regions : List (List Nat × List Nat)) (u cmax : Nat)
    (mode : InvalidCellsIn) (inv fuel : Nat) (i : Nat) (r c : List Nat)
    (rep : Report) (caps : List (Nat × Int))
    (hreg : regions[i]? = some (r, c))
    (hV : validIdx mode inv r c = [])
    (hok : imprint_constraints regions u cmax mode inv fuel
      = .ok (rep, caps)) :
    fraction_inlay r c u cmax mode inv fuel = ⟨.ok (r, Option.none), []⟩ ∧
    i ∈ rep.ignored ∧ i ∉ rep.ok ∧ i ∉ rep.jammed ∧ i ∉ rep.failed ∧
    caps.lookup i = Option.none := by
  have hspec := imprintGo_ignored_spec regions 0 ⟨[], [], [], []⟩ []
    rep caps i r c hok hreg hV
  simp only [Nat.zero_add] at hspec
  refine ⟨fraction_inlay_ignored_eq hV, hspec.1,
    fun hx => ?_, fun hx => ?_, fun hx => ?_, hspec.2.2.2.2⟩
  · exact absurd (hspec.2.1 hx) (List.not_mem_nil i)
  · exact absurd (hspec.2.2.1 hx) (List.not_mem_nil i)
  · exact absurd (hspec.2.2.2.1 hx) (List.not_mem_nil i)

/-- Witness for C7: the single region with raster block [5] and constraints
block [7], with invalid_in = constraints and invalid_value 7, has an empty
valid mask; fraction_inlay returns it unchanged with capacity None, and
imprint_constraints reports ignored = [0], no other classification, and an
empty capacity list. -/
theorem imprint_ignored_region_witness :
    fraction_inlay [5] [7] 1 100 .constraints 7 10
        = ⟨.ok ([5], Option.none), []⟩ ∧
      0 ∈ (⟨[], [], [0], []⟩ : Report).ignored ∧
      0 ∉ (⟨[], [], [0], []⟩ : Report).ok ∧
      0 ∉ (⟨[], [], [0], []⟩ : Report).jammed ∧
      0 ∉ (⟨[], [], [0], []⟩ : Report).failed ∧
      ([] : List (Nat × Int)).lookup 0 = Option.none :=
  imprint_ignored_region [([5], [7])] 1 100 .constraints 7 10 0 [5] [7]
    ⟨[], [], [0], []⟩ [] rfl (by decide) rfl

/-- Witness for C2 at block [60, 60] against constraints [50, 50] with
`cell_max = 100`: the call returns capacity -20 and the conclusions hold. -/
theorem fraction_inlay_jam_witness :
    ((fraction_inlay [60, 60] [50, 50] 1 100 .none 254 10).res
        = .ok ([50, 50], some (-20)) ∧ (-20 : Int) < 0) ∧
    ((∀ i, i < ([60, 60] : List Nat).length →
      (validB .none 254 [60, 60] [50, 50] i = true →
        ([50, 50] : List Nat).getD i 0 ≤ 100 ∧
        ([50, 50] : List Nat).getD i 0 = 100 - ([50, 50] : List Nat).getD i 0) ∧
      (validB .none 254 [60, 60] [50, 50] i = false →
        ([50, 50] : List Nat).getD i 0 = ([60, 60] : List Nat).getD i 0)) ∧
    -(-20 : Int) = ((rasterTotalOf .none 254 [60, 60] [50, 50] : Int)
        + (constTotalOf .none 254 [60, 60] [50, 50] : Int))
      - ((validIdx .none 254 [60, 60] [50, 50]).length : Int) * (100 : Int)) :=
  ⟨⟨rfl, by decide⟩,
   fraction_inlay_jam [60, 60] [50, 50] 1 100 .none 254 10 [50, 50] (-20)
     rfl (by decide)⟩

end RasterInlay
